import Mathlib

/-!
Verification of the routing layer (pattern compiler, condition sets,
middleware chains, scope cloning, route disambiguation, URL generation).

Strings are modelled as `List Char`.  The placeholder grammar of the
source regular expression (an opening brace, an identifier made of
letters, digits and underscores and starting with a letter or an
underscore, an optional three-dot remainder mark, a closing brace)
is embedded as an explicit scanner that finds the leftmost
non-overlapping matches, which is exactly what the Go regexp engine
returns for this pattern.
-/

/-- The opening brace character. -/
def lbraceChar : Char := Char.ofNat 123

/-- The closing brace character. -/
def rbraceChar : Char := Char.ofNat 125

/-- The colon character, reserved by the external matcher. -/
def colonChar : Char := ':'

/-- The asterisk character, reserved by the external matcher. -/
def starChar : Char := '*'

/-- The dot character, used by the remainder mark. -/
def dotChar : Char := '.'

/-- The path separator. -/
def slashChar : Char := '/'

/-- First character of an identifier: a letter or an underscore. -/
def identStart (c : Char) : Bool := c.isAlpha || c = '_'

/-- Subsequent character of an identifier: a letter, a digit or an underscore. -/
def identChar (c : Char) : Bool := c.isAlpha || c.isDigit || c = '_'

/-- A placeholder: its name and whether it is a remainder capture
(name followed by three dots). -/
structure Ph where
  name : List Char
  rem : Bool
deriving DecidableEq, Repr

/-- The literal text of a placeholder as it appears in a template. -/
def renderTok (ph : Ph) : List Char :=
  lbraceChar :: ph.name ++ (if ph.rem then [dotChar, dotChar, dotChar] else []) ++ [rbraceChar]

/-- Greedy identifier scan: consumes one identifier-start character and
then the longest run of identifier characters; fails otherwise. -/
def parseIdent (s : List Char) : Option (List Char × List Char) :=
  match s with
  | [] => none
  | c :: t =>
    if identStart c then some (c :: t.takeWhile identChar, t.dropWhile identChar)
    else none

/-- The closing text of a remainder placeholder: three dots and a brace. -/
def closingRem : List Char := [dotChar, dotChar, dotChar, rbraceChar]

/-- Attempt to match one placeholder at the head of the input, returning
the placeholder and the remaining input. -/
def parsePh (s : List Char) : Option (Ph × List Char) :=
  match s with
  | [] => none
  | c :: t =>
    if c = lbraceChar then
      match parseIdent t with
      | some (nm, rest) =>
        if closingRem.isPrefixOf rest then some (⟨nm, true⟩, rest.drop 4)
        else if rest.take 1 = [rbraceChar] then some (⟨nm, false⟩, rest.drop 1)
        else none
      | none => none
    else none

theorem dropWhile_length_le {α : Type} (p : α → Bool) (t : List α) :
    (t.dropWhile p).length ≤ t.length := by
  induction t with
  | nil => simp
  | cons c t ih =>
    by_cases h : p c
    · rw [List.dropWhile_cons_of_pos h]
      simp only [List.length_cons]
      omega
    · rw [List.dropWhile_cons_of_neg h]

theorem parseIdent_length {s nm rest : List Char} (h : parseIdent s = some (nm, rest)) :
    rest.length ≤ s.length := by
  unfold parseIdent at h
  match s with
  | [] => simp at h
  | c :: t =>
    simp only [] at h
    split at h
    · simp only [Option.some.injEq, Prod.mk.injEq] at h
      obtain ⟨-, h2⟩ := h
      subst h2
      calc (t.dropWhile identChar).length ≤ t.length := dropWhile_length_le identChar t
        _ ≤ (c :: t).length := by simp
    · simp at h

theorem parsePh_length {s : List Char} {ph : Ph} {rest : List Char}
    (h : parsePh s = some (ph, rest)) : rest.length < s.length := by
  unfold parsePh at h
  match s with
  | [] => simp at h
  | c :: t =>
    simp only [] at h
    split at h
    · match hpi : parseIdent t with
      | some (nm, r) =>
        rw [hpi] at h
        have hr : r.length ≤ t.length := parseIdent_length hpi
        simp only [] at h
        split at h
        · simp only [Option.some.injEq, Prod.mk.injEq] at h
          obtain ⟨-, h2⟩ := h
          subst h2
          simp only [List.length_cons, List.length_drop]
          omega
        · split at h
          · simp only [Option.some.injEq, Prod.mk.injEq] at h
            obtain ⟨-, h2⟩ := h
            subst h2
            simp only [List.length_cons, List.length_drop]
            omega
          · simp at h
      | none => rw [hpi] at h; simp at h
    · simp at h

/-- Fuel-driven scan; with fuel exceeding the input length it finds all
placeholders of the input. -/
def findPlaceholdersF (fuel : Nat) (s : List Char) : List Ph :=
  match fuel with
  | 0 => []
  | fuel + 1 =>
    match parsePh s with
    | some (ph, rest) => ph :: findPlaceholdersF fuel rest
    | none =>
      match s with
      | [] => []
      | _ :: t => findPlaceholdersF fuel t

theorem findPlaceholdersF_succ (fuel : Nat) (s : List Char) :
    findPlaceholdersF (fuel + 1) s =
      match parsePh s with
      | some (ph, rest) => ph :: findPlaceholdersF fuel rest
      | none =>
        match s with
        | [] => []
        | _ :: t => findPlaceholdersF fuel t := rfl

/-- All placeholders of a template, in left-to-right order, as found by
the leftmost non-overlapping scan of the source regular expression. -/
def findPlaceholders (s : List Char) : List Ph :=
  findPlaceholdersF (s.length + 1) s

theorem findPlaceholdersF_congr :
    ∀ (fuel fuel' : Nat) (s : List Char), s.length < fuel → s.length < fuel' →
    findPlaceholdersF fuel s = findPlaceholdersF fuel' s := by
  intro fuel
  induction fuel with
  | zero => intro fuel' s h; omega
  | succ fuel ih =>
    intro fuel' s h h'
    match fuel', h' with
    | fuel' + 1, h' =>
      rw [findPlaceholdersF_succ, findPlaceholdersF_succ]
      match hp : parsePh s with
      | some (ph, rest) =>
        have hlt := parsePh_length hp
        simp only []
        rw [ih fuel' rest (by omega) (by omega)]
      | none =>
        match s with
        | [] => simp
        | c :: t =>
          simp only [List.length_cons] at h h'
          simp only []
          rw [ih fuel' t (by omega) (by omega)]

theorem findPlaceholders_nil : findPlaceholders [] = [] := rfl

theorem findPlaceholders_some {s : List Char} {ph : Ph} {rest : List Char}
    (h : parsePh s = some (ph, rest)) :
    findPlaceholders s = ph :: findPlaceholders rest := by
  have hlt := parsePh_length h
  show findPlaceholdersF (s.length + 1) s = _
  rw [findPlaceholdersF_succ, h]
  simp only [List.cons.injEq, true_and]
  exact findPlaceholdersF_congr s.length (rest.length + 1) rest (by omega) (by omega)

theorem findPlaceholders_none {c : Char} {t : List Char}
    (h : parsePh (c :: t) = none) :
    findPlaceholders (c :: t) = findPlaceholders t := by
  show findPlaceholdersF ((c :: t).length + 1) (c :: t) = _
  rw [findPlaceholdersF_succ, h]
  simp only [List.length_cons]
  exact findPlaceholdersF_congr (t.length + 1) (t.length + 1) t (by omega) (by omega)

/-- Well-formed placeholder value: nonempty identifier name. -/
def phOK (ph : Ph) : Bool :=
  match ph.name with
  | [] => false
  | c :: t => identStart c && t.all identChar

theorem takeWhile_append_blocked {α : Type} (p : α → Bool) (xs ys : List α)
    (hx : ∀ c ∈ xs, p c = true) (hy : ∀ d, ys.head? = some d → p d = false) :
    (xs ++ ys).takeWhile p = xs ∧ (xs ++ ys).dropWhile p = ys := by
  induction xs with
  | nil =>
    simp only [List.nil_append]
    match ys with
    | [] => simp
    | d :: t =>
      have hd : p d = false := hy d rfl
      constructor
      · rw [List.takeWhile_cons_of_neg (by simp [hd])]
      · rw [List.dropWhile_cons_of_neg (by simp [hd])]
  | cons c xs ih =>
    have hc : p c = true := hx c (by simp)
    have ih' := ih (fun x hx' => hx x (by simp [hx']))
    constructor
    · rw [List.cons_append, List.takeWhile_cons_of_pos hc, ih'.1]
    · rw [List.cons_append, List.dropWhile_cons_of_pos hc, ih'.2]

theorem parseIdent_cons (c : Char) (t : List Char) :
    parseIdent (c :: t) =
      if identStart c then some (c :: t.takeWhile identChar, t.dropWhile identChar)
      else none := rfl

theorem parsePh_cons (c : Char) (t : List Char) :
    parsePh (c :: t) =
      if c = lbraceChar then
        match parseIdent t with
        | some (nm, rest) =>
          if closingRem.isPrefixOf rest then some (⟨nm, true⟩, rest.drop 4)
          else if rest.take 1 = [rbraceChar] then some (⟨nm, false⟩, rest.drop 1)
          else none
        | none => none
      else none := rfl

theorem parsePh_not_lbrace {c : Char} (hc : c ≠ lbraceChar) (t : List Char) :
    parsePh (c :: t) = none := by
  rw [parsePh_cons, if_neg hc]

theorem closingRem_isPrefixOf_dots (rest : List Char) :
    closingRem.isPrefixOf (dotChar :: dotChar :: dotChar :: rbraceChar :: rest) = true := by
  rw [closingRem]
  simp [List.isPrefixOf]

theorem closingRem_isPrefixOf_rbrace (rest : List Char) :
    closingRem.isPrefixOf (rbraceChar :: rest) = false := by
  rw [closingRem]
  simp only [List.isPrefixOf]
  rw [show (dotChar == rbraceChar) = false from by decide]
  simp

/-- Parsing a rendered well-formed placeholder succeeds and consumes
exactly the token, whatever follows. -/
theorem parsePh_render {ph : Ph} (hok : phOK ph = true) (rest : List Char) :
    parsePh (renderTok ph ++ rest) = some (ph, rest) := by
  obtain ⟨nm, rem⟩ := ph
  match nm with
  | [] => simp [phOK] at hok
  | c :: t =>
    simp only [phOK, Bool.and_eq_true, List.all_eq_true] at hok
    obtain ⟨hstart, hall⟩ := hok
    cases rem with
    | true =>
      have hshape : renderTok ⟨c :: t, true⟩ ++ rest =
          lbraceChar :: c :: (t ++ (dotChar :: dotChar :: dotChar :: rbraceChar :: rest)) := by
        rw [renderTok]
        simp
      have hblock := takeWhile_append_blocked identChar t
        (dotChar :: dotChar :: dotChar :: rbraceChar :: rest)
        hall (by intro d hd; simp at hd; rw [← hd]; decide)
      rw [hshape, parsePh_cons, if_pos rfl, parseIdent_cons, if_pos hstart]
      simp only []
      rw [hblock.1, hblock.2, closingRem_isPrefixOf_dots]
      simp
    | false =>
      have hshape : renderTok ⟨c :: t, false⟩ ++ rest =
          lbraceChar :: c :: (t ++ (rbraceChar :: rest)) := by
        rw [renderTok]
        simp
      have hblock := takeWhile_append_blocked identChar t (rbraceChar :: rest)
        hall (by intro d hd; simp at hd; rw [← hd]; decide)
      rw [hshape, parsePh_cons, if_pos rfl, parseIdent_cons, if_pos hstart]
      simp only []
      rw [hblock.1, hblock.2, closingRem_isPrefixOf_rbrace]
      simp

/-- A successful parse consumed exactly the rendered token, and the
resulting placeholder is well formed. -/
theorem parsePh_reconstruct {s : List Char} {ph : Ph} {rest : List Char}
    (h : parsePh s = some (ph, rest)) :
    s = renderTok ph ++ rest ∧ phOK ph = true := by
  match s with
  | [] => simp [parsePh] at h
  | c :: t =>
    rw [parsePh_cons] at h
    split at h
    case isFalse => simp at h
    case isTrue hc =>
    match hpi : parseIdent t with
    | none => rw [hpi] at h; simp at h
    | some (nm, r) =>
      rw [hpi] at h
      simp only [] at h
      match t with
      | [] => simp [parseIdent] at hpi
      | d :: u =>
        rw [parseIdent_cons] at hpi
        split at hpi
        case isFalse => simp at hpi
        case isTrue hd =>
        simp only [Option.some.injEq, Prod.mk.injEq] at hpi
        obtain ⟨hnm, hr⟩ := hpi
        have ht : d :: u = nm ++ r := by
          rw [← hnm, ← hr]
          simp [List.takeWhile_append_dropWhile]
        have hokt : ∀ b, phOK ⟨nm, b⟩ = true := by
          intro b
          simp only [phOK, ← hnm, Bool.and_eq_true, List.all_eq_true]
          exact ⟨hd, fun x hx => List.mem_takeWhile_imp hx⟩
        split at h
        · rename_i hpre
          simp only [Option.some.injEq, Prod.mk.injEq] at h
          obtain ⟨hph, hrest⟩ := h
          subst hph
          obtain ⟨r4, hr4⟩ := List.isPrefixOf_iff_prefix.mp hpre
          refine ⟨?_, hokt true⟩
          have hrr : rest = r4 := by
            rw [← hrest, ← hr4, closingRem]
            simp
          rw [renderTok]
          simp only [if_pos rfl]
          rw [hc, hrr]
          simp only [List.cons_append, List.cons.injEq, true_and]
          rw [ht, ← hr4, closingRem]
          simp
        · split at h
          · rename_i hrb
            simp only [Option.some.injEq, Prod.mk.injEq] at h
            obtain ⟨hph, hrest⟩ := h
            subst hph
            have hr1 : r = rbraceChar :: rest := by
              cases hrr : r with
              | nil => rw [hrr] at hrb; simp at hrb
              | cons x xs =>
                rw [hrr] at hrb
                simp only [List.take, List.cons.injEq] at hrb
                rw [hrr] at hrest
                simp only [List.drop] at hrest
                rw [hrb.1, hrest]
            refine ⟨?_, hokt false⟩
            rw [renderTok]
            simp only [if_neg Bool.false_ne_true]
            rw [hc]
            simp only [List.cons_append, List.cons.injEq, true_and]
            rw [ht, hr1]
            simp
          · simp at h

/-- Fuel-driven instrumented scan. -/
def scanDecompF (fuel : Nat) (s : List Char) : List (List Char) × List Ph :=
  match fuel with
  | 0 => ([[]], [])
  | fuel + 1 =>
    match parsePh s with
    | some (ph, rest) =>
      ([] :: (scanDecompF fuel rest).1, ph :: (scanDecompF fuel rest).2)
    | none =>
      match s with
      | [] => ([[]], [])
      | c :: t =>
        ((c :: (scanDecompF fuel t).1.headD []) :: (scanDecompF fuel t).1.tail,
          (scanDecompF fuel t).2)

theorem scanDecompF_succ (fuel : Nat) (s : List Char) :
    scanDecompF (fuel + 1) s =
      match parsePh s with
      | some (ph, rest) =>
        ([] :: (scanDecompF fuel rest).1, ph :: (scanDecompF fuel rest).2)
      | none =>
        match s with
        | [] => ([[]], [])
        | c :: t =>
          ((c :: (scanDecompF fuel t).1.headD []) :: (scanDecompF fuel t).1.tail,
            (scanDecompF fuel t).2) := rfl

/-- Instrumented scan: returns both the literal gap texts between the
placeholders (one more gap than placeholders) and the placeholders, in
left-to-right order.  The placeholder component coincides with
`findPlaceholders`. -/
def scanDecomp (s : List Char) : List (List Char) × List Ph :=
  scanDecompF (s.length + 1) s

theorem scanDecompF_congr :
    ∀ (fuel fuel' : Nat) (s : List Char), s.length < fuel → s.length < fuel' →
    scanDecompF fuel s = scanDecompF fuel' s := by
  intro fuel
  induction fuel with
  | zero => intro fuel' s h; omega
  | succ fuel ih =>
    intro fuel' s h h'
    match fuel', h' with
    | fuel' + 1, h' =>
      rw [scanDecompF_succ, scanDecompF_succ]
      match hp : parsePh s with
      | some (ph, rest) =>
        have hlt := parsePh_length hp
        simp only []
        rw [ih fuel' rest (by omega) (by omega)]
      | none =>
        match s with
        | [] => simp
        | c :: t =>
          simp only [List.length_cons] at h h'
          simp only []
          rw [ih fuel' t (by omega) (by omega)]

theorem scanDecomp_nil : scanDecomp [] = ([[]], []) := rfl

theorem scanDecomp_some {s : List Char} {ph : Ph} {rest : List Char}
    (h : parsePh s = some (ph, rest)) :
    scanDecomp s = ([] :: (scanDecomp rest).1, ph :: (scanDecomp rest).2) := by
  have hlt := parsePh_length h
  show scanDecompF (s.length + 1) s = _
  rw [scanDecompF_succ, h]
  simp only []
  rw [scanDecompF_congr s.length (rest.length + 1) rest (by omega) (by omega)]
  rfl

theorem scanDecomp_none {c : Char} {t : List Char}
    (h : parsePh (c :: t) = none) :
    scanDecomp (c :: t) =
      ((c :: (scanDecomp t).1.headD []) :: (scanDecomp t).1.tail, (scanDecomp t).2) := by
  show scanDecompF ((c :: t).length + 1) (c :: t) = _
  rw [scanDecompF_succ, h]
  simp only [List.length_cons]
  rfl

theorem scanDecomp_snd (s : List Char) : (scanDecomp s).2 = findPlaceholders s := by
  by_cases hlen : s.length = 0
  · match s with
    | [] => rw [scanDecomp_nil, findPlaceholders_nil]
  · match hp : parsePh s with
    | some (ph, rest) =>
      have : rest.length < s.length := parsePh_length hp
      rw [scanDecomp_some hp, findPlaceholders_some hp]
      simp only [List.cons.injEq, true_and]
      exact scanDecomp_snd rest
    | none =>
      match s with
      | [] => simp at hlen
      | c :: t =>
        have : t.length < (c :: t).length := by simp
        rw [scanDecomp_none hp, findPlaceholders_none hp]
        exact scanDecomp_snd t
termination_by s.length

theorem scanDecomp_fst_ne_nil (s : List Char) : (scanDecomp s).1 ≠ [] := by
  match hp : parsePh s with
  | some (ph, rest) => rw [scanDecomp_some hp]; simp
  | none =>
    match s with
    | [] => rw [scanDecomp_nil]; simp
    | c :: t => rw [scanDecomp_none hp]; simp

theorem scanDecomp_fst_length (s : List Char) :
    (scanDecomp s).1.length = (scanDecomp s).2.length + 1 := by
  match hp : parsePh s with
  | some (ph, rest) =>
    have : rest.length < s.length := parsePh_length hp
    rw [scanDecomp_some hp]
    simp only [List.length_cons]
    rw [scanDecomp_fst_length rest]
  | none =>
    match s with
    | [] => rw [scanDecomp_nil]; rfl
    | c :: t =>
      have : t.length < (c :: t).length := by simp
      rw [scanDecomp_none hp]
      simp only [List.length_cons]
      have ht := scanDecomp_fst_length t
      have hne := scanDecomp_fst_ne_nil t
      match hg : (scanDecomp t).1, hne with
      | g0 :: gr, _ =>
        rw [hg] at ht
        simp only [List.length_cons] at ht
        simp [ht]
termination_by s.length

/-- Alternating join of gap texts and segment texts. -/
def joinAlt : List (List Char) → List (List Char) → List Char
  | [], _ => []
  | g :: _, [] => g
  | g :: gs, x :: xs => g ++ x ++ joinAlt gs xs

theorem joinAlt_cons_head (c : Char) (g : List Char) (gs xs : List (List Char)) :
    joinAlt ((c :: g) :: gs) xs = c :: joinAlt (g :: gs) xs := by
  cases xs with
  | nil => rfl
  | cons x xs => simp [joinAlt]

theorem scanDecomp_join (s : List Char) :
    joinAlt (scanDecomp s).1 ((scanDecomp s).2.map renderTok) = s := by
  match hp : parsePh s with
  | some (ph, rest) =>
    have : rest.length < s.length := parsePh_length hp
    rw [scanDecomp_some hp]
    simp only [List.map_cons]
    rw [joinAlt]
    simp only [List.nil_append]
    rw [scanDecomp_join rest]
    exact ((parsePh_reconstruct hp).1).symm
  | none =>
    match s with
    | [] => rw [scanDecomp_nil]; rfl
    | c :: t =>
      have : t.length < (c :: t).length := by simp
      rw [scanDecomp_none hp]
      have hne := scanDecomp_fst_ne_nil t
      match hg : (scanDecomp t).1, hne with
      | g0 :: gr, _ =>
        simp only [List.headD_cons, List.tail_cons]
        rw [joinAlt_cons_head]
        have := scanDecomp_join t
        rw [hg] at this
        rw [this]
termination_by s.length

theorem findPlaceholders_phOK (s : List Char) :
    ∀ ph ∈ findPlaceholders s, phOK ph = true := by
  match hp : parsePh s with
  | some (ph, rest) =>
    have : rest.length < s.length := parsePh_length hp
    rw [findPlaceholders_some hp]
    intro q hq
    rcases List.mem_cons.mp hq with h | h
    · rw [h]; exact (parsePh_reconstruct hp).2
    · exact findPlaceholders_phOK rest q h
  | none =>
    match s with
    | [] => rw [findPlaceholders_nil]; simp
    | c :: t =>
      have : t.length < (c :: t).length := by simp
      rw [findPlaceholders_none hp]
      exact findPlaceholders_phOK t
termination_by s.length

theorem scanDecomp_nobrace (g : List Char) (hg : lbraceChar ∉ g) :
    scanDecomp g = ([g], []) := by
  induction g with
  | nil => exact scanDecomp_nil
  | cons c g' ih =>
    have hc : c ≠ lbraceChar := by
      intro h
      exact hg (by rw [h]; simp)
    have ih' := ih (fun h => hg (List.mem_cons_of_mem c h))
    rw [scanDecomp_none (parsePh_not_lbrace hc g'), ih']
    rfl

/-- Scanning a string assembled from brace-free gaps alternated with
well-formed rendered placeholders recovers exactly those gaps and
placeholders. -/
theorem scanDecomp_parts (phs : List Ph) : ∀ (g : List Char) (gaps : List (List Char)),
    gaps.length = phs.length →
    lbraceChar ∉ g →
    (∀ x ∈ gaps, lbraceChar ∉ x) →
    (∀ ph ∈ phs, phOK ph = true) →
    scanDecomp (joinAlt (g :: gaps) (phs.map renderTok)) = (g :: gaps, phs) := by
  induction phs with
  | nil =>
    intro g gaps hlen hg hgs hok
    have hnil : gaps = [] := List.length_eq_zero.mp hlen
    subst hnil
    show scanDecomp (joinAlt [g] []) = ([g], [])
    have : joinAlt [g] [] = g := rfl
    rw [this]
    exact scanDecomp_nobrace g hg
  | cons ph phs ih =>
    intro g gaps hlen hg hgs hok
    revert hg
    induction g with
    | nil =>
      intro hg
      match gaps, hlen with
      | g2 :: grest, hlen =>
        have hshape : joinAlt ([] :: g2 :: grest) ((ph :: phs).map renderTok) =
            renderTok ph ++ joinAlt (g2 :: grest) (phs.map renderTok) := by
          simp [joinAlt]
        rw [hshape]
        have hokph : phOK ph = true := hok ph (by simp)
        rw [scanDecomp_some (parsePh_render hokph _)]
        have hrec := ih g2 grest (by simpa using hlen)
          (hgs g2 (by simp))
          (fun x hx => hgs x (List.mem_cons_of_mem g2 hx))
          (fun q hq => hok q (List.mem_cons_of_mem ph hq))
        rw [hrec]
    | cons c g' ihg =>
      intro hg
      have hc : c ≠ lbraceChar := by
        intro h
        exact hg (by rw [h]; simp)
      have hg' : lbraceChar ∉ g' := fun h => hg (List.mem_cons_of_mem c h)
      rw [joinAlt_cons_head]
      rw [scanDecomp_none (parsePh_not_lbrace hc _)]
      rw [ihg hg']
      rfl

/-- Fuel-driven replacement loop. -/
def replaceAllF (fuel : Nat) (s tok repl : List Char) : List Char :=
  match fuel with
  | 0 => s
  | fuel + 1 =>
    if tok ≠ [] ∧ tok.isPrefixOf s = true then
      repl ++ replaceAllF fuel (s.drop tok.length) tok repl
    else
      match s with
      | [] => []
      | c :: t => c :: replaceAllF fuel t tok repl

/-- Replacement of every leftmost non-overlapping occurrence of `tok` by
`repl`, as the Go standard library performs it for a nonempty `tok`.
(The source never calls it with an empty replacement target.) -/
def replaceAll (s tok repl : List Char) : List Char :=
  replaceAllF (s.length + 1) s tok repl

theorem replaceAllF_congr :
    ∀ (fuel fuel' : Nat) (s tok repl : List Char), s.length < fuel → s.length < fuel' →
    replaceAllF fuel s tok repl = replaceAllF fuel' s tok repl := by
  intro fuel
  induction fuel with
  | zero => intro fuel' s tok repl h; omega
  | succ fuel ih =>
    intro fuel' s tok repl h h'
    match fuel', h' with
    | fuel' + 1, h' =>
      show replaceAllF (fuel + 1) s tok repl = replaceAllF (fuel' + 1) s tok repl
      unfold replaceAllF
      by_cases hc : tok ≠ [] ∧ tok.isPrefixOf s = true
      · rw [if_pos hc, if_pos hc]
        have hpre : tok <+: s := List.isPrefixOf_iff_prefix.mp hc.2
        have h1 : tok.length ≤ s.length := hpre.length_le
        have h2 : 0 < tok.length := List.length_pos.mpr hc.1
        rw [ih fuel' (s.drop tok.length) tok repl
          (by simp only [List.length_drop]; omega)
          (by simp only [List.length_drop]; omega)]
      · rw [if_neg hc, if_neg hc]
        match s with
        | [] => simp
        | c :: t =>
          simp only [List.length_cons] at h h'
          simp only [List.cons.injEq, true_and]
          rw [ih fuel' t tok repl (by omega) (by omega)]

theorem replaceAll_nil (tok repl : List Char) : replaceAll [] tok repl = [] := by
  show replaceAllF 1 [] tok repl = []
  unfold replaceAllF
  rw [if_neg]
  rintro ⟨h1, h2⟩
  match tok, h1 with
  | c :: t, _ => simp [List.isPrefixOf] at h2

theorem replaceAll_pos {s tok : List Char} (repl : List Char)
    (hne : tok ≠ []) (hpre : tok.isPrefixOf s = true) :
    replaceAll s tok repl = repl ++ replaceAll (s.drop tok.length) tok repl := by
  show replaceAllF (s.length + 1) s tok repl = _
  unfold replaceAllF
  rw [if_pos ⟨hne, hpre⟩]
  have h1 : tok.length ≤ s.length := (List.isPrefixOf_iff_prefix.mp hpre).length_le
  have h2 : 0 < tok.length := List.length_pos.mpr hne
  rw [replaceAllF_congr s.length ((s.drop tok.length).length + 1) (s.drop tok.length) tok repl
    (by simp only [List.length_drop]; omega) (by omega)]
  rfl

theorem replaceAll_cons_neg {tok : List Char} {c : Char} {t : List Char} (repl : List Char)
    (hnpre : tok.isPrefixOf (c :: t) = false) :
    replaceAll (c :: t) tok repl = c :: replaceAll t tok repl := by
  show replaceAllF ((c :: t).length + 1) (c :: t) tok repl = _
  unfold replaceAllF
  rw [if_neg (by rintro ⟨h1, h2⟩; rw [hnpre] at h2; simp at h2)]
  simp only [List.length_cons, List.cons.injEq, true_and]
  rfl

theorem replaceAll_empty_tok (s repl : List Char) : replaceAll s [] repl = s := by
  suffices h : ∀ fuel (u : List Char), u.length < fuel → replaceAllF fuel u [] repl = u by
    exact h (s.length + 1) s (by omega)
  intro fuel
  induction fuel with
  | zero => intro u h; omega
  | succ fuel ih =>
    intro u h
    unfold replaceAllF
    rw [if_neg (by simp)]
    match u with
    | [] => rfl
    | c :: t =>
      simp only [List.length_cons] at h
      simp only [List.cons.injEq, true_and]
      exact ih t (by omega)

/-- A token occurs in a string. -/
def occursIn (tok s : List Char) : Prop := ∃ a b, s = a ++ tok ++ b

theorem replaceAll_of_not_occurs {s tok : List Char} (repl : List Char)
    (hno : ¬ occursIn tok s) : replaceAll s tok repl = s := by
  induction s with
  | nil => exact replaceAll_nil tok repl
  | cons c t ih =>
    have hnpre : tok.isPrefixOf (c :: t) = false := by
      by_contra h
      have h' : tok.isPrefixOf (c :: t) = true := by
        cases hb : tok.isPrefixOf (c :: t) with
        | true => rfl
        | false => exact absurd hb h
      obtain ⟨b, hb⟩ := List.isPrefixOf_iff_prefix.mp h'
      exact hno ⟨[], b, by rw [← hb]; simp⟩
    rw [replaceAll_cons_neg repl hnpre]
    have hnt : ¬ occursIn tok t := by
      rintro ⟨a, b, hab⟩
      exact hno ⟨c :: a, b, by rw [hab]; simp⟩
    rw [ih hnt]

/-- If a token has a unique occurrence in a string, replacing it yields
exactly the surrounding text around the replacement. -/
theorem replaceAll_unique {tok : List Char} (repl : List Char) (hne : tok ≠ []) :
    ∀ (pre : List Char) {s post : List Char},
    s = pre ++ tok ++ post →
    (∀ a b, s = a ++ tok ++ b → a = pre ∧ b = post) →
    replaceAll s tok repl = pre ++ repl ++ post := by
  intro pre
  induction pre with
  | nil =>
    intro s post hs huniq
    have hpre : tok.isPrefixOf s = true := by
      rw [List.isPrefixOf_iff_prefix]
      exact ⟨post, by rw [hs]; simp⟩
    rw [replaceAll_pos repl hne hpre]
    have hdrop : s.drop tok.length = post := by
      rw [hs]
      simp
    rw [hdrop]
    have hnpost : ¬ occursIn tok post := by
      rintro ⟨a, b, hab⟩
      have h2 : s = (tok ++ a) ++ tok ++ b := by
        rw [hs, hab]
        simp
      have happ : tok ++ a = [] := (huniq (tok ++ a) b h2).1
      exact hne (List.append_eq_nil.mp happ).1
    rw [replaceAll_of_not_occurs repl hnpost]
    simp
  | cons c pre' ih =>
    intro s post hs huniq
    have hsc : s = c :: (pre' ++ tok ++ post) := by
      rw [hs]
      simp
    have hnpre : tok.isPrefixOf s = false := by
      by_contra h
      have h' : tok.isPrefixOf s = true := by
        cases hb : tok.isPrefixOf s with
        | true => rfl
        | false => exact absurd hb h
      obtain ⟨b, hb⟩ := List.isPrefixOf_iff_prefix.mp h'
      have := (huniq [] b (by rw [← hb]; simp)).1
      simp at this
    rw [hsc] at hnpre
    rw [hsc, replaceAll_cons_neg repl hnpre]
    have huniq' : ∀ a b, pre' ++ tok ++ post = a ++ tok ++ b → a = pre' ∧ b = post := by
      intro a b hab
      have h2 : s = (c :: a) ++ tok ++ b := by
        rw [hsc, hab]
        simp
      have h3 := huniq (c :: a) b h2
      refine ⟨?_, h3.2⟩
      have := h3.1
      simp only [List.cons.injEq] at this
      exact this.2
    rw [ih rfl huniq']
    simp

/-- Removal of the matcher-reserved characters, as the source performs it
with two replacements by the empty string. -/
def stripReserved (s : List Char) : List Char :=
  replaceAll (replaceAll s [colonChar] []) [starChar] []

theorem replaceAll_single_empty (c : Char) (s : List Char) :
    replaceAll s [c] [] = s.filter (fun x => x != c) := by
  induction s with
  | nil => rw [replaceAll_nil]; rfl
  | cons d t ih =>
    by_cases hd : c = d
    · subst hd
      have hpre : [c].isPrefixOf (c :: t) = true := by simp [List.isPrefixOf]
      rw [replaceAll_pos [] (by simp) hpre]
      simp only [List.length_cons, List.length_nil, Nat.zero_add, List.drop_one,
        List.tail_cons, List.nil_append]
      rw [ih]
      simp [List.filter]
    · have hcd : (c == d) = false := beq_eq_false_iff_ne.mpr hd
      have hpre : [c].isPrefixOf (d :: t) = false := by
        simp [List.isPrefixOf, hcd]
      rw [replaceAll_cons_neg [] hpre, ih]
      have : (d != c) = true := by
        simp only [bne_iff_ne, ne_eq]
        intro h
        exact hd h.symm
      simp [List.filter, this]

theorem stripReserved_eq_filter (s : List Char) :
    stripReserved s = s.filter (fun x => x != colonChar && x != starChar) := by
  rw [stripReserved, replaceAll_single_empty, replaceAll_single_empty]
  rw [List.filter_filter]
  apply List.filter_congr
  intro x _
  exact Bool.and_comm _ _

theorem stripReserved_append (s t : List Char) :
    stripReserved (s ++ t) = stripReserved s ++ stripReserved t := by
  simp [stripReserved_eq_filter]

theorem mem_stripReserved {x : Char} {s : List Char} :
    x ∈ stripReserved s ↔ x ∈ s ∧ x ≠ colonChar ∧ x ≠ starChar := by
  rw [stripReserved_eq_filter]
  simp [List.mem_filter]

/-- One decimal digit character. -/
def digitChar (n : Nat) : Char :=
  match n with
  | 0 => '0' | 1 => '1' | 2 => '2' | 3 => '3' | 4 => '4'
  | 5 => '5' | 6 => '6' | 7 => '7' | 8 => '8' | _ => '9'

/-- Fuel-driven decimal rendering. -/
def natCharsF (fuel n : Nat) : List Char :=
  match fuel with
  | 0 => []
  | fuel + 1 =>
    if n < 10 then [digitChar n]
    else natCharsF fuel (n / 10) ++ [digitChar (n % 10)]

/-- Decimal rendering of a natural number, as the percent-d format verb
produces it. -/
def natChars (n : Nat) : List Char :=
  natCharsF (n + 1) n

theorem digitChar_isDigit (n : Nat) : (digitChar n).isDigit = true := by
  unfold digitChar
  split <;> decide

theorem natCharsF_isDigit (fuel n : Nat) : ∀ c ∈ natCharsF fuel n, c.isDigit = true := by
  induction fuel generalizing n with
  | zero => simp [natCharsF]
  | succ fuel ih =>
    unfold natCharsF
    split
    · intro c hc
      simp only [List.mem_singleton] at hc
      rw [hc]
      exact digitChar_isDigit n
    · intro c hc
      rcases List.mem_append.mp hc with h | h
      · exact ih (n / 10) c h
      · simp only [List.mem_singleton] at h
        rw [h]
        exact digitChar_isDigit (n % 10)

theorem natChars_isDigit (n : Nat) : ∀ c ∈ natChars n, c.isDigit = true :=
  natCharsF_isDigit (n + 1) n

/-- The positional marker the compiler substitutes for the placeholder
with the given zero-based occurrence index: a star for a remainder
capture, a colon otherwise, followed by the decimal index. -/
def markerTok (i : Nat) (r : Bool) : List Char :=
  (if r then starChar else colonChar) :: natChars i

theorem lbrace_not_mem_markerTok (i : Nat) (r : Bool) : lbraceChar ∉ markerTok i r := by
  intro h
  rw [markerTok] at h
  rcases List.mem_cons.mp h with h | h
  · cases r <;> simp_all <;> exact absurd h (by decide)
  · have := natChars_isDigit i lbraceChar h
    exact absurd this (by decide)

/-- The parameter-name list of a template: the first submatch of every
placeholder occurrence, in order. -/
def paramNames (p : List Char) : List (List Char) :=
  (findPlaceholders p).map Ph.name

/-- The full regular-expression matches of a template: for each
placeholder occurrence, the matched placeholder (its full text is
recovered by `renderTok`, its first submatch is the name, its second
submatch is the remainder mark). -/
def paramNamesMatch (p : List Char) : List Ph :=
  findPlaceholders p

/-- The matcher-facing compiled pattern: strip the matcher-reserved
characters, find all placeholder occurrences of the stripped string, and
replace the full text of the occurrence of index `i` by a positional
marker carrying `i`. -/
def httpRouterString (p : List Char) : List Char :=
  List.foldl (fun u iph => replaceAll u (renderTok iph.2) (markerTok iph.1 iph.2.rem))
    (stripReserved p) (findPlaceholders (stripReserved p)).enum

theorem identStart_identChar {c : Char} (h : identStart c = true) : identChar c = true := by
  simp only [identStart, Bool.or_eq_true] at h
  simp only [identChar, Bool.or_eq_true]
  rcases h with h | h
  · exact Or.inl (Or.inl h)
  · exact Or.inr h

theorem identChar_ne_lbrace {c : Char} (h : identChar c = true) : c ≠ lbraceChar := by
  rintro rfl
  revert h
  decide

theorem identChar_ne_colon {c : Char} (h : identChar c = true) : c ≠ colonChar := by
  rintro rfl
  revert h
  decide

theorem identChar_ne_star {c : Char} (h : identChar c = true) : c ≠ starChar := by
  rintro rfl
  revert h
  decide

theorem phOK_name_identChar {ph : Ph} (hok : phOK ph = true) :
    ∀ c ∈ ph.name, identChar c = true := by
  obtain ⟨nm, rem⟩ := ph
  match nm with
  | [] => simp [phOK] at hok
  | c :: t =>
    simp only [phOK, Bool.and_eq_true, List.all_eq_true] at hok
    intro x hx
    rcases List.mem_cons.mp hx with h | h
    · rw [h]
      exact identStart_identChar hok.1
    · exact hok.2 x h

/-- The tail of a rendered token (everything after the opening brace)
contains no opening brace. -/
theorem lbrace_not_mem_renderTok_tail {ph : Ph} (hok : phOK ph = true) :
    lbraceChar ∉
      ph.name ++ (if ph.rem then [dotChar, dotChar, dotChar] else []) ++ [rbraceChar] := by
  intro h
  rcases List.mem_append.mp h with h | h
  · rcases List.mem_append.mp h with h | h
    · exact identChar_ne_lbrace (phOK_name_identChar hok lbraceChar h) rfl
    · have hnm : lbraceChar ∉ (if ph.rem then [dotChar, dotChar, dotChar] else []) := by
        cases ph.rem <;> decide
      exact hnm h
  · simp only [List.mem_singleton] at h
    exact absurd h (by decide)

theorem renderTok_shape (ph : Ph) :
    renderTok ph =
      lbraceChar ::
        (ph.name ++ (if ph.rem then [dotChar, dotChar, dotChar] else []) ++ [rbraceChar]) := by
  rw [renderTok]
  simp

theorem renderTok_ne_nil (ph : Ph) : renderTok ph ≠ [] := by
  rw [renderTok_shape]
  simp

/-- A segment of a partially compiled template: either literal text or a
still-uncompiled placeholder token. -/
inductive Seg where
  | lit (g : List Char)
  | tok (ph : Ph)
deriving DecidableEq

/-- The text of a segment. -/
def segText : Seg → List Char
  | .lit g => g
  | .tok ph => renderTok ph

/-- A well-formed segment: literal text holds no opening brace; a token
is a well-formed placeholder. -/
def segWF : Seg → Prop
  | .lit g => lbraceChar ∉ g
  | .tok ph => phOK ph = true

/-- The names of the token segments, in order. -/
def segNames (L : List Seg) : List (List Char) :=
  L.filterMap fun sg =>
    match sg with
    | .tok ph => some ph.name
    | .lit _ => none

/-- Concatenated text of a segment list. -/
def joinSegs : List Seg → List Char
  | [] => []
  | sg :: L => segText sg ++ joinSegs L

theorem joinSegs_append (L1 L2 : List Seg) :
    joinSegs (L1 ++ L2) = joinSegs L1 ++ joinSegs L2 := by
  induction L1 with
  | nil => simp [joinSegs]
  | cons sg L ih => simp [joinSegs, ih]

theorem segNames_append (L1 L2 : List Seg) :
    segNames (L1 ++ L2) = segNames L1 ++ segNames L2 := by
  simp [segNames]

theorem mem_segNames_of_tok {ph : Ph} {L : List Seg} (h : Seg.tok ph ∈ L) :
    ph.name ∈ segNames L := by
  rw [segNames, List.mem_filterMap]
  exact ⟨Seg.tok ph, h, rfl⟩

/-- Any occurrence of a well-formed rendered token inside the text of a
well-formed segment list is aligned with a token segment of that name. -/
theorem occurrence_at_tok {L : List Seg} (hwf : ∀ sg ∈ L, segWF sg) {ph : Ph}
    (hok : phOK ph = true) :
    ∀ {a b : List Char}, joinSegs L = a ++ renderTok ph ++ b →
    ∃ L1 L2, L = L1 ++ Seg.tok ph :: L2 ∧ a = joinSegs L1 ∧ b = joinSegs L2 := by
  induction L with
  | nil =>
    intro a b h
    rw [joinSegs] at h
    have := congrArg List.length h
    simp at this
    have hlen : renderTok ph = [] := List.length_eq_zero.mp (by omega)
    exact absurd hlen (renderTok_ne_nil ph)
  | cons sg L ih =>
    intro a b h
    have hwfL : ∀ x ∈ L, segWF x := fun x hx => hwf x (List.mem_cons_of_mem sg hx)
    rw [joinSegs] at h
    rw [List.append_assoc] at h
    rcases List.append_eq_append_iff.mp h with ⟨w, hw1, hw2⟩ | ⟨w, hw1, hw2⟩
    · -- the occurrence begins at or after the end of the first segment
      rw [← List.append_assoc] at hw2
      obtain ⟨L1, L2, hL, ha, hb⟩ := ih hwfL hw2
      refine ⟨sg :: L1, L2, by rw [hL]; simp, ?_, hb⟩
      rw [hw1, ha, joinSegs]
    · -- the first segment extends to or beyond the occurrence start
      match w, hw1, hw2 with
      | [], hw1, hw2 =>
        -- the occurrence starts exactly at the end of the first segment
        simp only [List.nil_append] at hw2
        have hL' : joinSegs L = [] ++ renderTok ph ++ b := by
          rw [← hw2]
          simp
        obtain ⟨L1, L2, hL, ha, hb⟩ := ih hwfL hL'
        refine ⟨sg :: L1, L2, by rw [hL]; simp, ?_, hb⟩
        rw [joinSegs, ← ha]
        simp only [List.append_nil]
        rw [hw1]
        simp
      | y :: w', hw1, hw2 =>
        have hy : y = lbraceChar := by
          have := congrArg (fun l => l.head?) hw2
          rw [renderTok_shape] at this
          simp at this
          exact this.symm
        match hsg : sg, hwf sg (by simp) with
        | Seg.lit g, hwfg =>
          -- an opening brace would lie inside a literal segment
          exfalso
          rw [segText] at hw1
          have hyg : y ∈ g := by
            rw [hw1]
            simp
          rw [hy] at hyg
          exact hwfg hyg
        | Seg.tok q, hwfq =>
          match a, hw1 with
          | [], hw1 =>
            -- the occurrence is aligned with this very token
            rw [segText] at hw1
            simp only [List.nil_append] at hw1
            have hparse1 : parsePh (renderTok q ++ joinSegs L) = some (q, joinSegs L) :=
              parsePh_render hwfq _
            rw [hw1] at hparse1
            have hparse2 : parsePh (y :: w' ++ joinSegs L) = some (ph, b) := by
              rw [← hw2]
              exact parsePh_render hok b
            rw [hparse2] at hparse1
            simp only [Option.some.injEq, Prod.mk.injEq] at hparse1
            obtain ⟨hq, hb⟩ := hparse1
            refine ⟨[], L, by rw [hq]; simp, rfl, hb⟩
          | x :: a', hw1 =>
            -- an opening brace would lie strictly inside this token
            exfalso
            rw [segText, renderTok_shape] at hw1
            rw [List.cons_append] at hw1
            simp only [List.cons.injEq] at hw1
            have hmem : y ∈ q.name ++
                (if q.rem then [dotChar, dotChar, dotChar] else []) ++ [rbraceChar] := by
              rw [hw1.2]
              simp
            rw [hy] at hmem
            exact lbrace_not_mem_renderTok_tail hwfq hmem

theorem segNames_nil : segNames [] = [] := rfl

theorem segNames_cons_lit (g : List Char) (L : List Seg) :
    segNames (Seg.lit g :: L) = segNames L := by
  simp [segNames]

theorem segNames_cons_tok (ph : Ph) (L : List Seg) :
    segNames (Seg.tok ph :: L) = ph.name :: segNames L := by
  simp [segNames]

/-- With pairwise-distinct token names a segment list splits at a token
in at most one way. -/
theorem seg_split_unique {ph : Ph} :
    ∀ {L L1 L2 M1 M2 : List Seg},
    (segNames L).Nodup →
    L = L1 ++ Seg.tok ph :: L2 → L = M1 ++ Seg.tok ph :: M2 → L1 = M1 ∧ L2 = M2 := by
  intro L L1
  induction L1 generalizing L with
  | nil =>
    intro L2 M1 M2 hnd h1 h2
    match M1 with
    | [] =>
      rw [h1] at h2
      simp only [List.nil_append, List.cons.injEq] at h2
      exact ⟨rfl, h2.2⟩
    | sg :: M1' =>
      exfalso
      rw [h1] at h2
      simp only [List.nil_append, List.cons_append, List.cons.injEq] at h2
      obtain ⟨hsg, hL2⟩ := h2
      rw [h1] at hnd
      simp only [List.nil_append] at hnd
      rw [segNames_cons_tok] at hnd
      have hmem : ph.name ∈ segNames L2 := by
        rw [hL2, segNames_append, segNames_cons_tok]
        simp
      exact (List.nodup_cons.mp hnd).1 hmem
  | cons sg L1' ih =>
    intro L2 M1 M2 hnd h1 h2
    match M1 with
    | [] =>
      exfalso
      rw [h2] at h1
      simp only [List.nil_append, List.cons_append, List.cons.injEq] at h1
      obtain ⟨hsg, hM2⟩ := h1
      rw [h2] at hnd
      simp only [List.nil_append] at hnd
      rw [segNames_cons_tok] at hnd
      have hmem : ph.name ∈ segNames M2 := by
        rw [hM2, segNames_append, segNames_cons_tok]
        simp
      exact (List.nodup_cons.mp hnd).1 hmem
    | sg' :: M1' =>
      rw [h1] at h2
      simp only [List.cons_append, List.cons.injEq] at h2
      obtain ⟨hsg, htail⟩ := h2
      have hndtail : (segNames (L1' ++ Seg.tok ph :: L2)).Nodup := by
        rw [h1] at hnd
        match sg with
        | Seg.lit g => rw [List.cons_append, segNames_cons_lit] at hnd; exact hnd
        | Seg.tok q =>
          rw [List.cons_append, segNames_cons_tok] at hnd
          exact (List.nodup_cons.mp hnd).2
      obtain ⟨hh, ht⟩ := ih hndtail rfl htail
      exact ⟨by rw [hsg, hh], ht⟩

theorem replaceAll_joinSegs {L1 L2 : List Seg} {ph : Ph} (repl : List Char)
    (hwf : ∀ sg ∈ L1 ++ Seg.tok ph :: L2, segWF sg)
    (hnd : (segNames (L1 ++ Seg.tok ph :: L2)).Nodup) :
    replaceAll (joinSegs (L1 ++ Seg.tok ph :: L2)) (renderTok ph) repl
      = joinSegs L1 ++ repl ++ joinSegs L2 := by
  have hok : phOK ph = true := hwf (Seg.tok ph) (by simp)
  have hs : joinSegs (L1 ++ Seg.tok ph :: L2)
      = joinSegs L1 ++ renderTok ph ++ joinSegs L2 := by
    rw [joinSegs_append, joinSegs]
    simp [segText]
  apply replaceAll_unique repl (renderTok_ne_nil ph) (joinSegs L1) hs
  intro a b hab
  obtain ⟨M1, M2, hM, ha, hb⟩ := occurrence_at_tok hwf hok hab
  obtain ⟨h1, h2⟩ := seg_split_unique hnd hM rfl
  rw [ha, hb, h1, h2]
  exact ⟨rfl, rfl⟩

/-- The segment list of a template decomposed into gaps and placeholder
tokens. -/
def altSegs : List (List Char) → List Ph → List Seg
  | [], _ => []
  | g :: _, [] => [Seg.lit g]
  | g :: gs, ph :: phs => Seg.lit g :: Seg.tok ph :: altSegs gs phs

theorem joinSegs_altSegs : ∀ (gaps : List (List Char)) (phs : List Ph),
    joinSegs (altSegs gaps phs) = joinAlt gaps (phs.map renderTok) := by
  intro gaps
  induction gaps with
  | nil => intro phs; cases phs <;> rfl
  | cons g gs ih =>
    intro phs
    cases phs with
    | nil => simp [altSegs, joinAlt, joinSegs, segText]
    | cons ph phs =>
      simp only [altSegs, joinAlt, joinSegs, segText, List.map_cons]
      rw [ih phs]
      simp [List.append_assoc]

theorem altSegs_wf {gaps : List (List Char)} {phs : List Ph}
    (hg : ∀ g ∈ gaps, lbraceChar ∉ g) (hp : ∀ ph ∈ phs, phOK ph = true) :
    ∀ sg ∈ altSegs gaps phs, segWF sg := by
  induction gaps generalizing phs with
  | nil => simp [altSegs]
  | cons g gs ih =>
    cases phs with
    | nil =>
      intro sg hsg
      simp only [altSegs, List.mem_singleton] at hsg
      rw [hsg]
      exact hg g (by simp)
    | cons ph phs =>
      intro sg hsg
      simp only [altSegs, List.mem_cons] at hsg
      rcases hsg with h | h | h
      · rw [h]; exact hg g (by simp)
      · rw [h]; exact hp ph (by simp)
      · exact ih (fun x hx => hg x (List.mem_cons_of_mem g hx))
          (fun x hx => hp x (List.mem_cons_of_mem ph hx)) sg h

theorem segNames_altSegs : ∀ (gaps : List (List Char)) (phs : List Ph),
    gaps.length = phs.length + 1 → segNames (altSegs gaps phs) = phs.map Ph.name := by
  intro gaps
  induction gaps with
  | nil => intro phs h; simp at h
  | cons g gs ih =>
    intro phs h
    cases phs with
    | nil => simp [altSegs, segNames]
    | cons ph phs =>
      simp only [altSegs]
      rw [segNames_cons_lit, segNames_cons_tok]
      simp only [List.length_cons] at h
      rw [ih phs (by omega)]
      rfl

theorem segNames_all_lit {L : List Seg}
    (h : ∀ sg ∈ L, ∃ g, sg = Seg.lit g ∧ lbraceChar ∉ g) : segNames L = [] := by
  induction L with
  | nil => rfl
  | cons sg L ih =>
    obtain ⟨g, hg, -⟩ := h sg (by simp)
    rw [hg, segNames_cons_lit]
    exact ih fun x hx => h x (List.mem_cons_of_mem sg hx)

/-- Running the replacement loop from a given index over the remaining
placeholders turns each token into its positional marker, leaving all
literal text alone. -/
theorem foldl_markers : ∀ (phs : List Ph) (i : Nat) (done : List Seg)
    (gaps : List (List Char)),
    gaps.length = phs.length + 1 →
    (∀ sg ∈ done, ∃ g, sg = Seg.lit g ∧ lbraceChar ∉ g) →
    (∀ g ∈ gaps, lbraceChar ∉ g) →
    (∀ ph ∈ phs, phOK ph = true) →
    (phs.map Ph.name).Nodup →
    List.foldl (fun u iph => replaceAll u (renderTok iph.2) (markerTok iph.1 iph.2.rem))
      (joinSegs (done ++ altSegs gaps phs)) (List.enumFrom i phs)
    = joinSegs done ++ joinAlt gaps ((List.enumFrom i phs).map fun x => markerTok x.1 x.2.rem) := by
  intro phs
  induction phs with
  | nil =>
    intro i done gaps hlen hdone hgaps hok hnd
    match gaps, hlen with
    | [g], _ =>
      simp only [List.enumFrom, List.foldl, List.map_nil]
      rw [joinSegs_append]
      simp [altSegs, joinSegs, segText, joinAlt]
  | cons ph phs ih =>
    intro i done gaps hlen hdone hgaps hok hnd
    match gaps, hlen with
    | g :: gaps, hlen =>
      simp only [List.length_cons] at hlen
      have hlen' : gaps.length = phs.length + 1 := by omega
      simp only [List.enumFrom, List.foldl]
      have hsplit : done ++ altSegs (g :: gaps) (ph :: phs)
          = (done ++ [Seg.lit g]) ++ Seg.tok ph :: altSegs gaps phs := by
        simp [altSegs]
      rw [hsplit]
      have hwf : ∀ sg ∈ (done ++ [Seg.lit g]) ++ Seg.tok ph :: altSegs gaps phs, segWF sg := by
        intro sg hsg
        rcases List.mem_append.mp hsg with h | h
        · rcases List.mem_append.mp h with h | h
          · obtain ⟨g', hg', hng'⟩ := hdone sg h
            rw [hg']
            exact hng'
          · simp only [List.mem_singleton] at h
            rw [h]
            exact hgaps g (by simp)
        · rcases List.mem_cons.mp h with h | h
          · rw [h]
            exact hok ph (by simp)
          · exact altSegs_wf (fun x hx => hgaps x (List.mem_cons_of_mem g hx))
              (fun x hx => hok x (List.mem_cons_of_mem ph hx)) sg h
      have hnames : (segNames ((done ++ [Seg.lit g]) ++ Seg.tok ph :: altSegs gaps phs)).Nodup := by
        rw [segNames_append, segNames_append, segNames_cons_lit, segNames_cons_tok]
        rw [segNames_all_lit hdone, segNames_altSegs gaps phs hlen', segNames_nil]
        simpa using hnd
      rw [replaceAll_joinSegs (markerTok i ph.rem) hwf hnames]
      have hstep : joinSegs (done ++ [Seg.lit g]) ++ markerTok i ph.rem
            ++ joinSegs (altSegs gaps phs)
          = joinSegs ((done ++ [Seg.lit g, Seg.lit (markerTok i ph.rem)]) ++ altSegs gaps phs) := by
        rw [joinSegs_append, joinSegs_append, joinSegs_append]
        simp [joinSegs, segText, List.append_assoc]
      rw [hstep]
      have hdone' : ∀ sg ∈ done ++ [Seg.lit g, Seg.lit (markerTok i ph.rem)],
          ∃ g', sg = Seg.lit g' ∧ lbraceChar ∉ g' := by
        intro sg hsg
        rcases List.mem_append.mp hsg with h | h
        · exact hdone sg h
        · rcases List.mem_cons.mp h with h | h
          · exact ⟨g, h, hgaps g (by simp)⟩
          · simp only [List.mem_singleton] at h
            exact ⟨markerTok i ph.rem, h, lbrace_not_mem_markerTok i ph.rem⟩
      rw [ih (i + 1) (done ++ [Seg.lit g, Seg.lit (markerTok i ph.rem)]) gaps hlen' hdone'
        (fun x hx => hgaps x (List.mem_cons_of_mem g hx))
        (fun x hx => hok x (List.mem_cons_of_mem ph hx))
        (by simpa using (List.nodup_cons.mp (by simpa using hnd)).2)]
      rw [joinSegs_append]
      simp only [List.map_cons, joinAlt, joinSegs, segText, List.append_assoc, List.append_nil]

theorem stripReserved_nil : stripReserved [] = [] := by
  rw [stripReserved_eq_filter]
  rfl

theorem stripReserved_renderTok {ph : Ph} (hok : phOK ph = true) :
    stripReserved (renderTok ph) = renderTok ph := by
  rw [stripReserved_eq_filter]
  apply List.filter_eq_self.mpr
  intro a ha
  simp only [Bool.and_eq_true, bne_iff_ne, ne_eq]
  rw [renderTok_shape] at ha
  rcases List.mem_cons.mp ha with h | h
  · rw [h]
    constructor <;> decide
  · rcases List.mem_append.mp h with h | h
    · rcases List.mem_append.mp h with h | h
      · have hic := phOK_name_identChar hok a h
        exact ⟨identChar_ne_colon hic, identChar_ne_star hic⟩
      · have hdot : a = dotChar := by
          rcases Bool.eq_false_or_eq_true ph.rem with hr | hr <;> rw [hr] at h <;> simp at h
          exact h
        rw [hdot]
        constructor <;> decide
    · simp only [List.mem_singleton] at h
      rw [h]
      constructor <;> decide

theorem strip_joinAlt : ∀ (gaps : List (List Char)) (phs : List Ph),
    (∀ ph ∈ phs, phOK ph = true) →
    stripReserved (joinAlt gaps (phs.map renderTok))
      = joinAlt (gaps.map stripReserved) (phs.map renderTok) := by
  intro gaps
  induction gaps with
  | nil =>
    intro phs _
    cases phs <;> simp [joinAlt, stripReserved_nil]
  | cons g gs ih =>
    intro phs hok
    cases phs with
    | nil => simp [joinAlt]
    | cons ph phs =>
      simp only [List.map_cons, joinAlt]
      rw [stripReserved_append, stripReserved_append]
      rw [stripReserved_renderTok (hok ph (by simp))]
      rw [ih phs (fun x hx => hok x (List.mem_cons_of_mem ph hx))]

/-- C3, main assembly: under the well-formedness assumptions of the
specification (every opening brace of the template starts a placeholder,
and the placeholder names are pairwise distinct), the template splits
into literal gaps and its `k` placeholders; the compiled matcher-facing
pattern is the same split with each placeholder of index `i` replaced by
its positional marker (a star for a remainder capture, a colon
otherwise, followed by the decimal index, in the same left-to-right
order), with the matcher-reserved characters removed from the literal
gaps; and the parameter-name list has exactly length `k`. -/
theorem c3_pattern_compile (p : List Char)
    (hgaps : ∀ g ∈ (scanDecomp p).1, lbraceChar ∉ g)
    (hnd : (paramNames p).Nodup) :
    (paramNames p).length = (findPlaceholders p).length
    ∧ p = joinAlt (scanDecomp p).1 ((findPlaceholders p).map renderTok)
    ∧ httpRouterString p =
        joinAlt ((scanDecomp p).1.map stripReserved)
          ((findPlaceholders p).enum.map fun x => markerTok x.1 x.2.rem)
    ∧ ∀ g ∈ (scanDecomp p).1.map stripReserved, colonChar ∉ g ∧ starChar ∉ g := by
  have hsnd := scanDecomp_snd p
  have hjoin := scanDecomp_join p
  rw [hsnd] at hjoin
  have hphok := findPlaceholders_phOK p
  have hlen : (scanDecomp p).1.length = (findPlaceholders p).length + 1 := by
    rw [scanDecomp_fst_length p, hsnd]
  have hstrip : stripReserved p
      = joinAlt ((scanDecomp p).1.map stripReserved)
          ((findPlaceholders p).map renderTok) := by
    conv_lhs => rw [← hjoin]
    exact strip_joinAlt (scanDecomp p).1 (findPlaceholders p) hphok
  have hg' : ∀ g ∈ (scanDecomp p).1.map stripReserved, lbraceChar ∉ g := by
    intro g hg
    obtain ⟨g0, hg0, rfl⟩ := List.mem_map.mp hg
    intro hmem
    exact hgaps g0 hg0 (mem_stripReserved.mp hmem).1
  have hscan' : scanDecomp (stripReserved p)
      = ((scanDecomp p).1.map stripReserved, findPlaceholders p) := by
    have hne := scanDecomp_fst_ne_nil p
    match hsd : (scanDecomp p).1, hne with
    | g :: gs, _ =>
      rw [hstrip, hsd]
      simp only [List.map_cons]
      apply scanDecomp_parts
      · rw [hsd] at hlen
        simp only [List.length_cons] at hlen
        simp only [List.length_map]
        omega
      · exact hg' (stripReserved g) (by rw [hsd]; simp)
      · intro x hx
        apply hg'
        rw [hsd]
        simp only [List.map_cons, List.mem_cons]
        exact Or.inr hx
      · exact hphok
  have hfind' : findPlaceholders (stripReserved p) = findPlaceholders p := by
    have := scanDecomp_snd (stripReserved p)
    rw [hscan'] at this
    exact this.symm
  refine ⟨by simp [paramNames], hjoin.symm, ?_, ?_⟩
  · rw [httpRouterString, hfind']
    have hinit : stripReserved p
        = joinSegs ([] ++ altSegs ((scanDecomp p).1.map stripReserved) (findPlaceholders p)) := by
      rw [List.nil_append, joinSegs_altSegs, hstrip]
    rw [hinit]
    have henum : (findPlaceholders p).enum = List.enumFrom 0 (findPlaceholders p) := rfl
    rw [henum]
    rw [foldl_markers (findPlaceholders p) 0 [] ((scanDecomp p).1.map stripReserved)
      (by simp only [List.length_map]; omega)
      (by simp)
      hg'
      hphok
      (by rw [paramNames] at hnd; exact hnd)]
    rw [joinSegs]
    simp
  · intro g hg
    obtain ⟨g0, hg0, rfl⟩ := List.mem_map.mp hg
    constructor
    · intro hmem
      exact (mem_stripReserved.mp hmem).2.1 rfl
    · intro hmem
      exact (mem_stripReserved.mp hmem).2.2 rfl

theorem parsePh_append_some {s : List Char} {ph : Ph} {rest : List Char}
    (h : parsePh s = some (ph, rest)) (ys : List Char) :
    parsePh (s ++ ys) = some (ph, rest ++ ys) := by
  obtain ⟨hs, hok⟩ := parsePh_reconstruct h
  rw [hs, List.append_assoc]
  exact parsePh_render hok (rest ++ ys)

theorem findPlaceholders_nobrace {s : List Char} (h : lbraceChar ∉ s) :
    findPlaceholders s = [] := by
  induction s with
  | nil => exact findPlaceholders_nil
  | cons c t ih =>
    have hc : c ≠ lbraceChar := fun hc => h (by rw [hc]; simp)
    rw [findPlaceholders_none (parsePh_not_lbrace hc t)]
    exact ih fun hm => h (List.mem_cons_of_mem c hm)

theorem identStart_ne_lbrace {c : Char} (h : identStart c = true) : c ≠ lbraceChar :=
  identChar_ne_lbrace (identStart_identChar h)

/-- If the head of the input fails to parse as a placeholder but succeeds
once more text is appended, then the failed attempt had consumed the
whole input, which therefore contains no further opening brace. -/
theorem parsePh_append_runout {c : Char} {t : List Char} {ys : List Char}
    (hn : parsePh (c :: t) = none) {x : Ph × List Char}
    (hs : parsePh ((c :: t) ++ ys) = some x) : lbraceChar ∉ t := by
  have hc : c = lbraceChar := by
    by_contra hc
    rw [List.cons_append, parsePh_not_lbrace hc (t ++ ys)] at hs
    simp at hs
  match t with
  | [] => simp
  | d :: t' =>
    have hd : identStart d = true := by
      by_contra hd
      have : parseIdent ((d :: t') ++ ys) = none := by
        rw [List.cons_append, parseIdent_cons, if_neg hd]
      rw [List.cons_append, parsePh_cons, this] at hs
      simp only [] at hs
      split at hs <;> simp at hs
    rw [parsePh_cons, if_pos hc, parseIdent_cons, if_pos hd] at hn
    rw [List.cons_append, parsePh_cons, if_pos hc, List.cons_append,
      parseIdent_cons, if_pos hd] at hs
    simp only [] at hn hs
    have hsplit := @List.takeWhile_append_dropWhile _ identChar t'
    match hv : t'.dropWhile identChar with
    | [] =>
      -- the whole tail is identifier characters
      have hall : ∀ y ∈ t', identChar y = true := by
        intro y hy
        rw [← hsplit] at hy
        rw [hv, List.append_nil] at hy
        exact List.mem_takeWhile_imp hy
      intro hmem
      rcases List.mem_cons.mp hmem with h | h
      · exact identStart_ne_lbrace hd h.symm
      · exact identChar_ne_lbrace (hall lbraceChar h) rfl
    | d' :: v' =>
      have hd' : identChar d' = false := by
        have := List.head?_dropWhile_not identChar t'
        rw [hv] at this
        simpa using this
      have hcat := takeWhile_append_blocked identChar (t'.takeWhile identChar)
        ((d' :: v') ++ ys)
        (fun y hy => List.mem_takeWhile_imp hy)
        (by intro e he; simp only [List.cons_append, List.head?_cons,
              Option.some.injEq] at he; rw [← he]; exact hd')
      have ht'ys : t' ++ ys = t'.takeWhile identChar ++ ((d' :: v') ++ ys) := by
        conv_lhs => rw [← hsplit]
        rw [hv]
        simp
      rw [ht'ys, hcat.1, hcat.2] at hs
      rw [hv] at hn
      -- failure conditions of the lone parse
      have hnpre : closingRem.isPrefixOf (d' :: v') = false := by
        by_contra hb
        have hb' : closingRem.isPrefixOf (d' :: v') = true := by
          cases hx : closingRem.isPrefixOf (d' :: v') with
          | true => rfl
          | false => exact absurd hx hb
        rw [hb'] at hn
        simp at hn
      have hnrb : ¬ (d' :: v').take 1 = [rbraceChar] := by
        intro hb
        rw [hnpre, hb] at hn
        simp at hn
      -- success conditions of the appended parse
      have hsucc : closingRem.isPrefixOf ((d' :: v') ++ ys) = true := by
        by_contra hb
        have hb' : closingRem.isPrefixOf ((d' :: v') ++ ys) = false := by
          cases hx : closingRem.isPrefixOf ((d' :: v') ++ ys) with
          | true => exact absurd hx hb
          | false => rfl
        rw [hb'] at hs
        have : ((d' :: v') ++ ys).take 1 = [rbraceChar] → False := by
          intro hb2
          simp only [List.cons_append, List.take, List.cons.injEq] at hb2
          apply hnrb
          simp [hb2.1]
        rw [if_neg (by simp)] at hs
        split at hs
        · rename_i hb2
          exact this hb2
        · simp at hs
      -- the lone tail is then a proper prefix of the closing text
      have hvpre : (d' :: v') <+: closingRem := by
        have h1 : (d' :: v') <+: ((d' :: v') ++ ys) := ⟨ys, rfl⟩
        have h2 : closingRem <+: ((d' :: v') ++ ys) := List.isPrefixOf_iff_prefix.mp hsucc
        rcases List.prefix_or_prefix_of_prefix h1 h2 with h | h
        · exact h
        · exfalso
          rw [← List.isPrefixOf_iff_prefix] at h
          rw [h] at hnpre
          simp at hnpre
      intro hmem
      rcases List.mem_cons.mp hmem with h | h
      · exact identStart_ne_lbrace hd h.symm
      · rw [← hsplit, hv] at h
        rcases List.mem_append.mp h with h | h
        · exact identChar_ne_lbrace (List.mem_takeWhile_imp h) rfl
        · have hmemc : lbraceChar ∈ closingRem := hvpre.subset h
          rw [closingRem] at hmemc
          revert hmemc
          decide

/-- Appending more text to a template never removes or reorders the
placeholders already present: the placeholder list of the original is a
prefix of that of the extension. -/
theorem findPlaceholders_append_mono (xs ys : List Char) :
    findPlaceholders xs <+: findPlaceholders (xs ++ ys) := by
  by_cases hlen : xs.length = 0
  · match xs with
    | [] => rw [findPlaceholders_nil]; exact List.nil_prefix
  · match hp : parsePh xs with
    | some (ph, rest) =>
      have hrest : rest.length < xs.length := parsePh_length hp
      rw [findPlaceholders_some hp, findPlaceholders_some (parsePh_append_some hp ys)]
      rw [List.cons_prefix_cons]
      exact ⟨rfl, findPlaceholders_append_mono rest ys⟩
    | none =>
      match xs with
      | [] => simp at hlen
      | c :: t =>
        have ht : t.length < (c :: t).length := by simp
        rw [findPlaceholders_none hp]
        match hq : parsePh ((c :: t) ++ ys) with
        | none =>
          rw [List.cons_append] at hq ⊢
          rw [findPlaceholders_none hq]
          exact findPlaceholders_append_mono t ys
        | some x =>
          rw [findPlaceholders_nobrace (parsePh_append_runout hp hq)]
          exact List.nil_prefix
termination_by xs.length

/-!
Condition sets.  The source stores, per route, a map from parameter
index to a validation predicate on the captured string, and `match`
ranges over the entries, reading the captured value at each constrained
index and failing on the first rejecting predicate.  The map is modelled
as an association list; the unspecified iteration order of a Go map is
modelled by the list order, and the theorems assume only what makes the
result order-independent.  Reading a capture index outside the supplied
value list is an out-of-range slice access, that is, a fault, modelled
as `none`.
-/

/-- One pass of the condition-set match over the entries. -/
def condMatch (c : List (Nat × (String → Bool))) (params : List String) : Option Bool :=
  match c with
  | [] => some true
  | (k, f) :: rest =>
    match params.get? k with
    | none => none
    | some v => if f v then condMatch rest params else some false

/-- Overwriting insertion, as assignment into the Go map behaves. -/
def condSet (c : List (Nat × (String → Bool))) (k : Nat) (f : String → Bool) :
    List (Nat × (String → Bool)) :=
  (k, f) :: c.filter fun kv => kv.1 != k

theorem condMatch_cons (k : Nat) (f : String → Bool)
    (rest : List (Nat × (String → Bool))) (params : List String) :
    condMatch ((k, f) :: rest) params =
      match params.get? k with
      | none => none
      | some v => if f v then condMatch rest params else some false := rfl

/-- C4: with every constrained index covered by the captured-value list,
the match returns true exactly when every registered predicate accepts
the value at its index (an index with no predicate is vacuously
satisfied), and the result never depends on the value at an index that
carries no predicate. -/
theorem c4_condition_match (c : List (Nat × (String → Bool))) (params : List String)
    (hcov : ∀ kf ∈ c, kf.1 < params.length) :
    (condMatch c params = some true ↔ ∀ kf ∈ c, kf.2 (params.getD kf.1 "") = true)
    ∧ ∀ x v, (∀ kf ∈ c, kf.1 ≠ x) →
        condMatch c (params.set x v) = condMatch c params := by
  induction c with
  | nil =>
    refine ⟨by simp [condMatch], ?_⟩
    intro x v _
    rfl
  | cons kf rest ih =>
    obtain ⟨k, f⟩ := kf
    have hk : k < params.length := hcov (k, f) (by simp)
    have ih' := ih fun x hx => hcov x (List.mem_cons_of_mem (k, f) hx)
    have hget : params.get? k = some (params.getD k "") := by
      rw [List.getD_eq_getD_get?]
      match hg : params.get? k with
      | some v => rfl
      | none =>
        rw [List.get?_eq_none] at hg
        omega
    constructor
    · rw [condMatch_cons, hget]
      simp only []
      constructor
      · intro h
        split at h
        · rename_i hf
          intro kg hkg
          rcases List.mem_cons.mp hkg with hh | hh
          · rw [hh]
            exact hf
          · exact (ih'.1.mp h) kg hh
        · simp at h
      · intro h
        have hf : f (params.getD k "") = true := h (k, f) (by simp)
        rw [if_pos hf]
        exact ih'.1.mpr fun kg hkg => h kg (List.mem_cons_of_mem (k, f) hkg)
    · intro x v hne
      rw [condMatch_cons, condMatch_cons]
      have hkx : k ≠ x := hne (k, f) (by simp)
      have hgset : (params.set x v).get? k = params.get? k := by
        rw [List.get?_eq_getElem?, List.get?_eq_getElem?, List.getElem?_set_ne]
        omega
      rw [hgset]
      rw [ih'.2 x v fun kg hkg => hne kg (List.mem_cons_of_mem (k, f) hkg)]

theorem condMatch_isSome {c : List (Nat × (String → Bool))} {params : List String}
    (hcov : ∀ kf ∈ c, kf.1 < params.length) :
    condMatch c params ≠ none := by
  induction c with
  | nil => simp [condMatch]
  | cons kf rest ih =>
    obtain ⟨k, f⟩ := kf
    have hk : k < params.length := hcov (k, f) (by simp)
    rw [condMatch_cons]
    match hg : params.get? k with
    | none =>
      rw [List.get?_eq_none] at hg
      omega
    | some v =>
      simp only []
      split
      · exact ih fun x hx => hcov x (List.mem_cons_of_mem (k, f) hx)
      · simp

/-!
Middleware chains.  A middleware is a handler transformer; `wrap` loops
downward over the list from the last index to index zero, each step
wrapping the handler accumulated so far, which is exactly a right fold.
-/

/-- Wrap a terminal handler in a middleware chain, last entry innermost. -/
def middlewareWrap {H : Type} (mws : List (H → H)) (h : H) : H :=
  mws.foldr (fun m acc => m acc) h

/-- A handler that extends an observation trace: it receives the trace
of everything that observed the request before it and appends its own
mark, producing the trace of the full exchange. -/
def TraceHandler : Type := List String → List String

/-- A named tracing middleware: marks the request on the way in, and the
response on the way out. -/
def tagMw (nm : String) (h : TraceHandler) : TraceHandler :=
  fun t => h (t ++ ["enter " ++ nm]) ++ ["leave " ++ nm]

/-- C9: wrapping composes the chain with index zero outermost — the
three-element chain gives the stated composition, a chain of any length
peels its head as the outermost wrapper, and for observing middleware
the entry marks appear in index order before the handler runs while the
leave marks appear in reverse order after it. -/
theorem c9_wrap_composition :
    (∀ (H : Type) (m0 m1 m2 : H → H) (h : H),
      middlewareWrap [m0, m1, m2] h = m0 (m1 (m2 h)))
    ∧ (∀ (H : Type) (m : H → H) (ms : List (H → H)) (h : H),
      middlewareWrap (m :: ms) h = m (middlewareWrap ms h))
    ∧ ∀ (nms : List String) (h : TraceHandler) (t : List String),
      middlewareWrap (nms.map tagMw) h t
        = h (t ++ nms.map fun nm => "enter " ++ nm)
          ++ (nms.map fun nm => "leave " ++ nm).reverse := by
  refine ⟨fun H m0 m1 m2 h => rfl, fun H m ms h => rfl, ?_⟩
  intro nms
  induction nms with
  | nil =>
    intro h t
    simp only [List.map_nil, List.reverse_nil, List.append_nil]
    rfl
  | cons nm nms ih =>
    intro h t
    simp only [List.map_cons]
    show tagMw nm (middlewareWrap (nms.map tagMw) h) t = _
    show (middlewareWrap (nms.map tagMw) h) (t ++ ["enter " ++ nm]) ++ ["leave " ++ nm] = _
    rw [ih]
    simp [List.append_assoc]

/-!
Route candidate lists.  Dispatch scans the candidate list in
registration order, skipping routes without a handler, and returns the
first whose condition set accepts the captured values; evaluating a
condition set can fault on an out-of-range index, which aborts the scan
(modelled as an error value).
-/

/-- The per-route data dispatch consults. -/
structure RouteC (H : Type) where
  conds : List (Nat × (String → Bool))
  handler : Option H

/-- The candidate scan of the source: skip handler-less routes, return
the first whose conditions accept, propagate a conditions fault. -/
def routeListMatch {H : Type} : List (RouteC H) → List String → Except Unit (Option (RouteC H))
  | [], _ => .ok none
  | r :: rest, params =>
    match r.handler with
    | none => routeListMatch rest params
    | some _ =>
      match condMatch r.conds params with
      | none => .error ()
      | some true => .ok (some r)
      | some false => routeListMatch rest params

theorem routeListMatch_cons {H : Type} (r : RouteC H) (rest : List (RouteC H))
    (params : List String) :
    routeListMatch (r :: rest) params =
      match r.handler with
      | none => routeListMatch rest params
      | some _ =>
        match condMatch r.conds params with
        | none => .error ()
        | some true => .ok (some r)
        | some false => routeListMatch rest params := rfl

/-- C2: with every constrained index of every candidate covered by the
captured-value list, the scan returns (without crashing) the first route
in registration order that both has a handler and whose conditions
accept the captured values; a handler-less route is skipped without its
conditions even being evaluated; and when two candidates both accept and
both have handlers, the earlier-registered one is chosen. -/
theorem c2_first_registered_wins {H : Type} (rs : List (RouteC H)) (params : List String)
    (hcov : ∀ r ∈ rs, ∀ kf ∈ r.conds, kf.1 < params.length) :
    (routeListMatch rs params =
      .ok (rs.find? fun r => r.handler.isSome && (condMatch r.conds params == some true)))
    ∧ (∀ (r : RouteC H) (rest : List (RouteC H)), r.handler = none →
        routeListMatch (r :: rest) params = routeListMatch rest params)
    ∧ ∀ (A : RouteC H) (rest : List (RouteC H)),
        A.handler.isSome = true → condMatch A.conds params = some true →
        routeListMatch (A :: rest) params = .ok (some A) := by
  refine ⟨?_, ?_, ?_⟩
  · induction rs with
    | nil => simp [routeListMatch]
    | cons r rest ih =>
      have ih' := ih fun x hx => hcov x (List.mem_cons_of_mem r hx)
      match hh : r.handler with
      | none =>
        rw [routeListMatch_cons, hh]
        rw [List.find?_cons_of_neg]
        · exact ih'
        · simp [hh]
      | some h0 =>
        have hns := condMatch_isSome (hcov r (by simp))
        match hc : condMatch r.conds params with
        | none => exact absurd hc hns
        | some true =>
          rw [routeListMatch_cons, hh]
          simp only []
          rw [hc, List.find?_cons_of_pos]
          simp [hh, hc]
        | some false =>
          rw [routeListMatch_cons, hh]
          simp only []
          rw [hc, List.find?_cons_of_neg]
          · exact ih'
          · simp [hh, hc]
  · intro r rest hr
    rw [routeListMatch_cons, hr]
  · intro A rest hA hacc
    match hh : A.handler with
    | none => rw [hh] at hA; simp at hA
    | some h0 =>
      rw [routeListMatch_cons, hh]
      simp only []
      rw [hacc]

/-!
Reverse URL generation.  `Url` first fails when fewer values are
supplied than the route has placeholders, then walks the supplied
values: each value's string form is checked against the predicate at its
index when one is registered; a value whose index lies within the
placeholder range replaces the full original placeholder token in the
template, and any further value is appended as a literal path segment
after a separator.  On any failure the returned URL string is empty.
The supplied values are modelled by their string forms.
-/

/-- URL-generation failures, carrying the context of the source errors. -/
inductive UrlError where
  | notEnoughParameters (got need : Nat)
  | invalidParameter (s : String)
deriving DecidableEq, Repr

/-- One value step: substitute into the template within the placeholder
range, append a separated segment beyond it. -/
def urlApply (toks : List (List Char)) (u : List Char) (i : Nat) (s : String) : List Char :=
  if i < toks.length then replaceAll u (toks.getD i []) s.data
  else u ++ slashChar :: s.data

/-- The value loop of `Url`. -/
def urlLoop (conds : List (Nat × (String → Bool))) (toks : List (List Char)) :
    List String → Nat → List Char → List Char × Option UrlError
  | [], _, u => (u, none)
  | s :: rest, i, u =>
    match conds.lookup i with
    | some f =>
      if f s then urlLoop conds toks rest (i + 1) (urlApply toks u i s)
      else ([], some (.invalidParameter s))
    | none => urlLoop conds toks rest (i + 1) (urlApply toks u i s)

/-- `Route.Url`: the pattern template, the full placeholder tokens, the
conditions and the string forms of the supplied values. -/
def routeUrl (pat : List Char) (toks : List (List Char))
    (conds : List (Nat × (String → Bool))) (params : List String) :
    List Char × Option UrlError :=
  if params.length < toks.length then
    ([], some (.notEnoughParameters params.length toks.length))
  else urlLoop conds toks params 0 pat

theorem urlLoop_cons (conds : List (Nat × (String → Bool))) (toks : List (List Char))
    (s : String) (rest : List String) (i : Nat) (u : List Char) :
    urlLoop conds toks (s :: rest) i u =
      match conds.lookup i with
      | some f =>
        if f s then urlLoop conds toks rest (i + 1) (urlApply toks u i s)
        else ([], some (.invalidParameter s))
      | none => urlLoop conds toks rest (i + 1) (urlApply toks u i s) := rfl

/-- The pure substitute-then-append pass, with no predicate in the way. -/
def urlSubstAppend (toks : List (List Char)) : List String → Nat → List Char → List Char
  | [], _, u => u
  | s :: rest, i, u => urlSubstAppend toks rest (i + 1) (urlApply toks u i s)

theorem urlLoop_all_accepted (conds : List (Nat × (String → Bool)))
    (toks : List (List Char)) :
    ∀ (params : List String) (i : Nat) (u : List Char),
    (∀ j (hj : j < params.length) f, conds.lookup (i + j) = some f →
      f (params.get ⟨j, hj⟩) = true) →
    urlLoop conds toks params i u = (urlSubstAppend toks params i u, none) := by
  intro params
  induction params with
  | nil => intro i u _; rfl
  | cons s rest ih =>
    intro i u hacc
    rw [urlLoop_cons]
    have hstep : ∀ f, conds.lookup i = some f → f s = true := by
      intro f hf
      have := hacc 0 (by simp) f (by simpa using hf)
      simpa using this
    have hrest : ∀ j (hj : j < rest.length) f, conds.lookup (i + 1 + j) = some f →
        f (rest.get ⟨j, hj⟩) = true := by
      intro j hj f hf
      have := hacc (j + 1) (by simp; omega) f (by rw [show i + (j + 1) = i + 1 + j by omega]; exact hf)
      simpa using this
    match hl : conds.lookup i with
    | some f =>
      simp only []
      rw [if_pos (hstep f hl)]
      rw [ih (i + 1) (urlApply toks u i s) hrest]
      rfl
    | none =>
      rw [ih (i + 1) (urlApply toks u i s) hrest]
      rfl

theorem urlSubstAppend_beyond (toks : List (List Char)) :
    ∀ (params : List String) (i : Nat) (u : List Char), toks.length ≤ i →
    urlSubstAppend toks params i u
      = u ++ (params.map fun s => slashChar :: s.data).flatten := by
  intro params
  induction params with
  | nil => intro i u _; simp [urlSubstAppend]
  | cons s rest ih =>
    intro i u hi
    show urlSubstAppend toks rest (i + 1) (urlApply toks u i s) = _
    rw [urlApply, if_neg (by omega)]
    rw [ih (i + 1) _ (by omega)]
    simp [List.append_assoc]

theorem urlSubstAppend_split (toks : List (List Char)) :
    ∀ (p1 p2 : List String) (i : Nat) (u : List Char), i + p1.length = toks.length →
    urlSubstAppend toks (p1 ++ p2) i u
      = (List.zip (toks.drop i) p1).foldl (fun v ts => replaceAll v ts.1 ts.2.data) u
        ++ (p2.map fun s => slashChar :: s.data).flatten := by
  intro p1
  induction p1 with
  | nil =>
    intro p2 i u hi
    simp only [List.length_nil, Nat.add_zero] at hi
    simp only [List.nil_append]
    rw [urlSubstAppend_beyond toks p2 i u (by omega)]
    rw [List.drop_eq_nil_of_le (by omega)]
    simp
  | cons s p1 ih =>
    intro p2 i u hi
    simp only [List.length_cons] at hi
    show urlSubstAppend toks (p1 ++ p2) (i + 1) (urlApply toks u i s) = _
    have hi' : i < toks.length := by omega
    rw [urlApply, if_pos hi']
    rw [ih p2 (i + 1) _ (by omega)]
    have hdrop : toks.drop i = toks.get ⟨i, hi'⟩ :: toks.drop (i + 1) := by
      rw [List.drop_eq_getElem_cons hi']
      rfl
    rw [hdrop]
    simp only [List.zip_cons_cons, List.foldl_cons]
    have hgetD : toks.getD i [] = toks.get ⟨i, hi'⟩ := by
      rw [List.getD_eq_getD_get?, List.get?_eq_get hi']
      rfl
    rw [hgetD]

theorem mem_of_lookup_eq_some {conds : List (Nat × (String → Bool))} {k : Nat}
    {f : String → Bool} (h : conds.lookup k = some f) : (k, f) ∈ conds := by
  obtain ⟨l1, l2, hl, -⟩ := List.lookup_eq_some_iff.mp h
  rw [hl]
  simp

/-- C5: when enough values are supplied, every registered predicate
constrains an index within the placeholder range, and every constrained
value is accepted, `Url` succeeds and returns the template with each of
the first `nCaptured` original placeholder tokens replaced (by string
replacement) by the corresponding value's string form, and every value
beyond the placeholder count appended as a literal path segment after a
separator — without any predicate applying to those extras. -/
theorem c5_url_substitution (pat : List Char) (toks : List (List Char))
    (conds : List (Nat × (String → Bool))) (params : List String)
    (hlen : toks.length ≤ params.length)
    (_hkeys : ∀ kf ∈ conds, kf.1 < toks.length)
    (hacc : ∀ kf ∈ conds, kf.2 (params.getD kf.1 "") = true) :
    routeUrl pat toks conds params =
      ((List.zip toks (params.take toks.length)).foldl
          (fun v ts => replaceAll v ts.1 ts.2.data) pat
        ++ ((params.drop toks.length).map fun s => slashChar :: s.data).flatten,
        none) := by
  rw [routeUrl, if_neg (by omega)]
  have hconv : ∀ j (hj : j < params.length) f, conds.lookup (0 + j) = some f →
      f (params.get ⟨j, hj⟩) = true := by
    intro j hj f hf
    simp only [Nat.zero_add] at hf
    have hmem := mem_of_lookup_eq_some hf
    have := hacc (j, f) hmem
    simp only [] at this
    have hg : params.getD j "" = params.get ⟨j, hj⟩ := by
      rw [List.getD_eq_getD_get?, List.get?_eq_get hj]
      rfl
    rw [hg] at this
    exact this
  rw [urlLoop_all_accepted conds toks params 0 pat hconv]
  have hsplit := urlSubstAppend_split toks (params.take toks.length)
    (params.drop toks.length) 0 pat
    (by simp only [Nat.zero_add, List.length_take]; omega)
  rw [List.take_append_drop] at hsplit
  rw [hsplit]
  simp

theorem urlLoop_error_spec (conds : List (Nat × (String → Bool)))
    (toks : List (List Char)) :
    ∀ (params : List String) (i : Nat) (u : List Char),
    ((urlLoop conds toks params i u).2 = none ↔
      ∀ j (hj : j < params.length) f, conds.lookup (i + j) = some f →
        f (params.get ⟨j, hj⟩) = true)
    ∧ ∀ e, (urlLoop conds toks params i u).2 = some e →
        (urlLoop conds toks params i u).1 = [] ∧
        ∃ j, ∃ hj : j < params.length, ∃ f,
          e = .invalidParameter (params.get ⟨j, hj⟩) ∧
          conds.lookup (i + j) = some f ∧ f (params.get ⟨j, hj⟩) = false := by
  intro params
  induction params with
  | nil =>
    intro i u
    constructor
    · simp [urlLoop]
    · intro e he
      simp [urlLoop] at he
  | cons s rest ih =>
    intro i u
    rw [urlLoop_cons]
    match hl : conds.lookup i with
    | some f =>
      simp only []
      by_cases hf : f s = true
      · rw [if_pos hf]
        obtain ⟨ih1, ih2⟩ := ih (i + 1) (urlApply toks u i s)
        constructor
        · rw [ih1]
          constructor
          · intro h j hj g hg
            match j, hj with
            | 0, _ =>
              simp only [Nat.add_zero] at hg
              rw [hl] at hg
              simp only [Option.some.injEq] at hg
              rw [← hg]
              simpa using hf
            | j + 1, hj =>
              have := h j (by simp at hj; omega) g
                (by rw [show i + 1 + j = i + (j + 1) by omega]; exact hg)
              simpa using this
          · intro h j hj g hg
            have := h (j + 1) (by simp; omega) g
              (by rw [show i + (j + 1) = i + 1 + j by omega]; exact hg)
            simpa using this
        · intro e he
          obtain ⟨h1, j, hj, g, he', hg, hgv⟩ := ih2 e he
          refine ⟨h1, j + 1, by simp; omega, g, ?_, ?_, ?_⟩
          · simpa using he'
          · rw [show i + (j + 1) = i + 1 + j by omega]
            exact hg
          · simpa using hgv
      · rw [if_neg hf]
        constructor
        · constructor
          · intro h
            simp at h
          · intro h
            exfalso
            have := h 0 (by simp) f (by simpa using hl)
            simp only [List.get] at this
            exact hf this
        · intro e he
          simp only [Option.some.injEq] at he
          refine ⟨rfl, 0, by simp, f, ?_, by simpa using hl, ?_⟩
          · rw [← he]
            rfl
          · simp only [List.get]
            simpa using hf
    | none =>
      simp only []
      obtain ⟨ih1, ih2⟩ := ih (i + 1) (urlApply toks u i s)
      constructor
      · rw [ih1]
        constructor
        · intro h j hj g hg
          match j, hj with
          | 0, _ =>
            simp only [Nat.add_zero] at hg
            rw [hl] at hg
            simp at hg
          | j + 1, hj =>
            have := h j (by simp at hj; omega) g
              (by rw [show i + 1 + j = i + (j + 1) by omega]; exact hg)
            simpa using this
        · intro h j hj g hg
          have := h (j + 1) (by simp; omega) g
            (by rw [show i + (j + 1) = i + 1 + j by omega]; exact hg)
          simpa using this
      · intro e he
        obtain ⟨h1, j, hj, g, he', hg, hgv⟩ := ih2 e he
        refine ⟨h1, j + 1, by simp; omega, g, ?_, ?_, ?_⟩
        · simpa using he'
        · rw [show i + (j + 1) = i + 1 + j by omega]
          exact hg
        · simpa using hgv

/-- C6: `Url` fails exactly when too few values are supplied (reporting
both counts) or some supplied value fails the predicate registered at
its index (reporting the offending string); and whenever it fails the
returned URL string is empty. -/
theorem c6_url_error_cases (pat : List Char) (toks : List (List Char))
    (conds : List (Nat × (String → Bool))) (params : List String) :
    ((routeUrl pat toks conds params).2 ≠ none ↔
      params.length < toks.length ∨
        ∃ j, ∃ hj : j < params.length, ∃ f, conds.lookup j = some f ∧
          f (params.get ⟨j, hj⟩) = false)
    ∧ (params.length < toks.length →
        routeUrl pat toks conds params
          = ([], some (.notEnoughParameters params.length toks.length)))
    ∧ (∀ e, (routeUrl pat toks conds params).2 = some e →
        (routeUrl pat toks conds params).1 = [])
    ∧ ∀ s, (routeUrl pat toks conds params).2 = some (.invalidParameter s) →
        ∃ j, ∃ hj : j < params.length, ∃ f, s = params.get ⟨j, hj⟩ ∧
          conds.lookup j = some f ∧ f (params.get ⟨j, hj⟩) = false := by
  by_cases hlen : params.length < toks.length
  · rw [routeUrl, if_pos hlen]
    refine ⟨?_, fun _ => rfl, fun e _ => rfl, ?_⟩
    · simp only [ne_eq, Option.some_ne_none, not_false_iff, true_iff]
      exact Or.inl hlen
    · intro s hs
      simp at hs
  · rw [routeUrl, if_neg hlen]
    obtain ⟨h1, h2⟩ := urlLoop_error_spec conds toks params 0 pat
    refine ⟨?_, fun h => absurd h hlen, ?_, ?_⟩
    · rw [Ne, h1]
      constructor
      · intro h
        right
        by_contra hno
        push_neg at hno
        apply h
        intro j hj f hf
        simp only [Nat.zero_add] at hf
        by_contra hfv
        exact hno j hj f hf (by simpa using hfv)
      · rintro (h | ⟨j, hj, f, hf, hfv⟩) hall
        · exact hlen h
        · have := hall j hj f (by simpa using hf)
          rw [this] at hfv
          simp at hfv
    · intro e he
      exact (h2 e he).1
    · intro s hs
      obtain ⟨-, j, hj, f, he', hf, hfv⟩ := h2 (UrlError.invalidParameter s) hs
      refine ⟨j, hj, f, ?_, by simpa using hf, hfv⟩
      simp only [UrlError.invalidParameter.injEq] at he'
      exact he'

/-!
Scopes and routes as a small heap machine.  A scope (Router) holds a
path prefix and references to its own condition map and middleware list;
cloning (Group, Prefix) allocates fresh copies of both referenced cells,
so later mutation through the clone cannot reach the parent's cells.
Routes hold a reference to their own condition map, allocated at
creation as a copy of the creating scope's map.  The process-wide route
and name registries are shared by reference across all scopes and are
modelled separately with the registration machine below; they carry no
conditions or middleware.  An operation that the source turns into a
panic (unknown parameter name) or that uses an invalid reference stops
the run (`none`).
-/

/-- `helpers.Slice.IndexOf`: index of the first occurrence, none when
absent (the source returns -1). -/
def sliceIndexOf : List (List Char) → List Char → Option Nat
  | [], _ => none
  | x :: t, v => if x = v then some 0 else (sliceIndexOf t v).map (· + 1)

theorem sliceIndexOf_lt {xs : List (List Char)} {v : List Char} {i : Nat}
    (h : sliceIndexOf xs v = some i) : i < xs.length := by
  induction xs generalizing i with
  | nil => simp [sliceIndexOf] at h
  | cons x t ih =>
    rw [sliceIndexOf] at h
    split at h
    · simp only [Option.some.injEq] at h
      simp only [List.length_cons]
      omega
    · match hs : sliceIndexOf t v with
      | none => rw [hs] at h; simp at h
      | some j =>
        rw [hs] at h
        simp only [Option.map, Option.some.injEq] at h
        have := ih hs
        simp only [List.length_cons]
        omega

/-- A scope: references to its condition and middleware cells, and its
accumulated path prefix. -/
structure RouterObj where
  condRef : Nat
  mwRef : Nat
  pfx : List Char
deriving DecidableEq

/-- A route: a reference to its own condition cell and its full pattern. -/
structure RouteObj where
  condRef : Nat
  pat : List Char
deriving DecidableEq

/-- The whole mutable state: two heaps of cells, the scopes and the routes. -/
structure Sys (Mw : Type) where
  conds : List (List (Nat × (String → Bool)))
  mws : List (List Mw)
  routers : List RouterObj
  routes : List RouteObj

/-- The builder operations of the public API. -/
inductive Op (Mw : Type) where
  | group (r : Nat)
  | prefixOp (r : Nat) (path : List Char)
  | use (r : Nat) (ms : List Mw)
  | whereFunc (r : Nat) (param : List Char) (f : String → Bool)
  | newRoute (r : Nat) (path : List Char)
  | routeWhereFunc (rt : Nat) (param : List Char) (f : String → Bool)

/-- Read a condition cell. -/
def getCondCell {Mw : Type} (s : Sys Mw) (ref : Nat) : List (Nat × (String → Bool)) :=
  s.conds.getD ref []

/-- Read a middleware cell. -/
def getMwCell {Mw : Type} (s : Sys Mw) (ref : Nat) : List Mw :=
  s.mws.getD ref []

/-- `Router.clone`: fresh cells holding copies of the parent scope's
condition map and middleware list, sharing nothing mutable with it. -/
def cloneScope {Mw : Type} (s : Sys Mw) (ro : RouterObj) (newPfx : List Char) : Sys Mw :=
  { s with
    conds := s.conds ++ [getCondCell s ro.condRef],
    mws := s.mws ++ [getMwCell s ro.mwRef],
    routers := s.routers ++ [⟨s.conds.length, s.mws.length, newPfx⟩] }

/-- One operation.  `Group` and `Prefix` clone the scope: fresh cells
holding copies of the parent's condition map and middleware list.
`Use` appends to the scope's middleware cell.  `WhereFunc` resolves the
parameter inside the scope's own prefix and updates the scope's
condition cell.  `NewRoute` compiles `prefix + path` and gives the route
a fresh copy of the scope's condition cell.  `Route.WhereFunc` resolves
the parameter against the route's parameter names and updates the
route's own cell. -/
def stepOp {Mw : Type} (s : Sys Mw) : Op Mw → Option (Sys Mw)
  | .group r =>
    match s.routers.get? r with
    | none => none
    | some ro => some (cloneScope s ro ro.pfx)
  | .prefixOp r path =>
    match s.routers.get? r with
    | none => none
    | some ro => some (cloneScope s ro (ro.pfx ++ path))
  | .use r ms =>
    match s.routers.get? r with
    | none => none
    | some ro =>
      some { s with mws := s.mws.set ro.mwRef (getMwCell s ro.mwRef ++ ms) }
  | .whereFunc r param f =>
    match s.routers.get? r with
    | none => none
    | some ro =>
      match sliceIndexOf (paramNames ro.pfx) param with
      | none => none
      | some i =>
        some { s with
          conds := s.conds.set ro.condRef (condSet (getCondCell s ro.condRef) i f) }
  | .newRoute r path =>
    match s.routers.get? r with
    | none => none
    | some ro =>
      some { s with
        conds := s.conds ++ [getCondCell s ro.condRef],
        routes := s.routes ++ [⟨s.conds.length, ro.pfx ++ path⟩] }
  | .routeWhereFunc rt param f =>
    match s.routes.get? rt with
    | none => none
    | some r =>
      match sliceIndexOf (paramNames r.pat) param with
      | none => none
      | some i =>
        some { s with
          conds := s.conds.set r.condRef (condSet (getCondCell s r.condRef) i f) }

/-- Run a sequence of builder operations. -/
def runOps {Mw : Type} (s : Sys Mw) : List (Op Mw) → Option (Sys Mw)
  | [] => some s
  | op :: ops =>
    match stepOp s op with
    | none => none
    | some s' => runOps s' ops

/-- `router.New`: one scope with empty prefix, empty conditions, empty
middleware, no routes. -/
def sysInit {Mw : Type} : Sys Mw :=
  { conds := [[]], mws := [[]], routers := [⟨0, 0, []⟩], routes := [] }

/-- The condition-cell owners: every scope and every route, in order. -/
def condOwners {Mw : Type} (s : Sys Mw) : List Nat :=
  s.routers.map RouterObj.condRef ++ s.routes.map RouteObj.condRef

/-- The middleware-cell owners. -/
def mwOwners {Mw : Type} (s : Sys Mw) : List Nat :=
  s.routers.map RouterObj.mwRef

/-- Heap sanity: every reference is live, no two owners share a cell. -/
def sysWF {Mw : Type} (s : Sys Mw) : Prop :=
  (∀ x ∈ condOwners s, x < s.conds.length)
  ∧ (∀ x ∈ mwOwners s, x < s.mws.length)
  ∧ (condOwners s).Nodup
  ∧ (mwOwners s).Nodup

theorem sysInit_wf {Mw : Type} : sysWF ((sysInit : Sys Mw)) := by
  refine ⟨?_, ?_, ?_, ?_⟩ <;> simp [sysInit, condOwners, mwOwners]

theorem getD_append_lt {α : Type} (l l2 : List α) (d : α) (i : Nat) (h : i < l.length) :
    (l ++ l2).getD i d = l.getD i d := by
  rw [List.getD_eq_getD_get?, List.getD_eq_getD_get?, List.get?_append h]

theorem getD_set_ne {α : Type} (l : List α) (v d : α) (i j : Nat) (h : i ≠ j) :
    (l.set i v).getD j d = l.getD j d := by
  rw [List.getD_eq_getD_get?, List.getD_eq_getD_get?, List.get?_eq_getElem?,
    List.get?_eq_getElem?, List.getElem?_set_ne h]

theorem nodup_map_get_ne {α β : Type} {f : α → β} {l : List α}
    (hnd : (l.map f).Nodup) {i j : Nat} {a b : α}
    (hi : l.get? i = some a) (hj : l.get? j = some b) (hij : i ≠ j) :
    f a ≠ f b := by
  obtain ⟨hi', ha⟩ := List.get?_eq_some.mp hi
  obtain ⟨hj', hb⟩ := List.get?_eq_some.mp hj
  have hmi : i < (l.map f).length := by simpa using hi'
  have hmj : j < (l.map f).length := by simpa using hj'
  intro heq
  have h1 : (l.map f).get ⟨i, hmi⟩ = f a := by
    rw [List.get_map]
    exact congrArg f ha
  have h2 : (l.map f).get ⟨j, hmj⟩ = f b := by
    rw [List.get_map]
    exact congrArg f hb
  have : (⟨i, hmi⟩ : Fin (l.map f).length) = ⟨j, hmj⟩ := by
    rw [← hnd.get_inj_iff]
    rw [h1, h2, heq]
  simp only [Fin.mk.injEq] at this
  exact hij this

theorem condOwners_bound {Mw : Type} {s : Sys Mw} (hwf : sysWF s) :
    ∀ x ∈ condOwners s, x < s.conds.length := hwf.1

theorem sysWF_cloneScope {Mw : Type} {s : Sys Mw} {ro : RouterObj}
    (hwf : sysWF s) (pfx' : List Char) :
    sysWF (cloneScope s ro pfx') := by
  obtain ⟨hb1, hb2, hn1, hn2⟩ := hwf
  have hco : condOwners (cloneScope s ro pfx')
      = s.routers.map RouterObj.condRef ++ s.conds.length :: s.routes.map RouteObj.condRef := by
    simp [condOwners, cloneScope]
  have hmo : mwOwners (cloneScope s ro pfx') = mwOwners s ++ [s.mws.length] := by
    simp [mwOwners, cloneScope]
  have hclen : (cloneScope s ro pfx').conds.length = s.conds.length + 1 := by
    simp [cloneScope]
  have hmlen : (cloneScope s ro pfx').mws.length = s.mws.length + 1 := by
    simp [cloneScope]
  refine ⟨?_, ?_, ?_, ?_⟩
  · rw [hco, hclen]
    intro x hx
    rcases List.mem_append.mp hx with hx | hx
    · have := hb1 x (List.mem_append.mpr (Or.inl hx))
      omega
    · rcases List.mem_cons.mp hx with hx | hx
      · omega
      · have := hb1 x (List.mem_append.mpr (Or.inr hx))
        omega
  · rw [hmo, hmlen]
    intro x hx
    rcases List.mem_append.mp hx with hx | hx
    · have := hb2 x hx
      omega
    · simp only [List.mem_singleton] at hx
      omega
  · rw [hco, List.nodup_append]
    have hdisj := List.disjoint_of_nodup_append hn1
    refine ⟨hn1.of_append_left, ?_, ?_⟩
    · rw [List.nodup_cons]
      refine ⟨?_, hn1.of_append_right⟩
      intro hmem
      have := hb1 _ (List.mem_append.mpr (Or.inr hmem))
      omega
    · intro x hx hx'
      rcases List.mem_cons.mp hx' with h' | h'
      · have := hb1 x (List.mem_append.mpr (Or.inl hx))
        omega
      · exact hdisj hx h'
  · rw [hmo]
    rw [List.nodup_append]
    refine ⟨hn2, by simp, ?_⟩
    intro x hx hx'
    simp only [List.mem_singleton] at hx'
    have := hb2 x hx
    omega

theorem sysWF_setCond {Mw : Type} (s : Sys Mw) (ref : Nat)
    (c : List (Nat × (String → Bool))) (hwf : sysWF s) :
    sysWF { s with conds := s.conds.set ref c } := by
  obtain ⟨hb1, hb2, hn1, hn2⟩ := hwf
  refine ⟨?_, hb2, hn1, hn2⟩
  intro x hx
  have := hb1 x hx
  simpa using this

theorem sysWF_setMw {Mw : Type} (s : Sys Mw) (ref : Nat) (c : List Mw) (hwf : sysWF s) :
    sysWF { s with mws := s.mws.set ref c } := by
  obtain ⟨hb1, hb2, hn1, hn2⟩ := hwf
  refine ⟨hb1, ?_, hn1, hn2⟩
  intro x hx
  have := hb2 x hx
  simpa using this

theorem sysWF_newRoute {Mw : Type} (s : Sys Mw) (ro : RouterObj) (path : List Char)
    (hwf : sysWF s) :
    sysWF { s with
      conds := s.conds ++ [getCondCell s ro.condRef],
      routes := s.routes ++ [⟨s.conds.length, ro.pfx ++ path⟩] } := by
  obtain ⟨hb1, hb2, hn1, hn2⟩ := hwf
  have hco : condOwners { s with
      conds := s.conds ++ [getCondCell s ro.condRef],
      routes := s.routes ++ [⟨s.conds.length, ro.pfx ++ path⟩] }
      = condOwners s ++ [s.conds.length] := by
    simp [condOwners]
  refine ⟨?_, hb2, ?_, hn2⟩
  · rw [hco]
    intro x hx
    simp only [List.length_append, List.length_singleton]
    rcases List.mem_append.mp hx with hx | hx
    · have := hb1 x hx
      omega
    · simp only [List.mem_singleton] at hx
      omega
  · rw [hco, List.nodup_append]
    refine ⟨hn1, by simp, ?_⟩
    intro x hx hx'
    simp only [List.mem_singleton] at hx'
    have := hb1 x hx
    omega

theorem stepOp_wf {Mw : Type} {s s' : Sys Mw} {op : Op Mw}
    (hwf : sysWF s) (hstep : stepOp s op = some s') : sysWF s' := by
  match op with
  | .group r =>
    rw [stepOp] at hstep
    match hr : s.routers.get? r with
    | none => rw [hr] at hstep; simp at hstep
    | some ro =>
      rw [hr] at hstep
      simp only [Option.some.injEq] at hstep
      rw [← hstep]
      exact sysWF_cloneScope hwf ro.pfx
  | .prefixOp r path =>
    rw [stepOp] at hstep
    match hr : s.routers.get? r with
    | none => rw [hr] at hstep; simp at hstep
    | some ro =>
      rw [hr] at hstep
      simp only [Option.some.injEq] at hstep
      rw [← hstep]
      exact sysWF_cloneScope hwf (ro.pfx ++ path)
  | .use r ms =>
    rw [stepOp] at hstep
    match hr : s.routers.get? r with
    | none => rw [hr] at hstep; simp at hstep
    | some ro =>
      rw [hr] at hstep
      simp only [Option.some.injEq] at hstep
      rw [← hstep]
      exact sysWF_setMw s ro.mwRef _ hwf
  | .whereFunc r param f =>
    rw [stepOp] at hstep
    match hr : s.routers.get? r with
    | none => rw [hr] at hstep; simp at hstep
    | some ro =>
      rw [hr] at hstep
      simp only [] at hstep
      match hi : sliceIndexOf (paramNames ro.pfx) param with
      | none => rw [hi] at hstep; simp at hstep
      | some i =>
        rw [hi] at hstep
        simp only [Option.some.injEq] at hstep
        rw [← hstep]
        exact sysWF_setCond s ro.condRef _ hwf
  | .newRoute r path =>
    rw [stepOp] at hstep
    match hr : s.routers.get? r with
    | none => rw [hr] at hstep; simp at hstep
    | some ro =>
      rw [hr] at hstep
      simp only [Option.some.injEq] at hstep
      rw [← hstep]
      exact sysWF_newRoute s ro path hwf
  | .routeWhereFunc rt param f =>
    rw [stepOp] at hstep
    match hr : s.routes.get? rt with
    | none => rw [hr] at hstep; simp at hstep
    | some r0 =>
      rw [hr] at hstep
      simp only [] at hstep
      match hi : sliceIndexOf (paramNames r0.pat) param with
      | none => rw [hi] at hstep; simp at hstep
      | some i =>
        rw [hi] at hstep
        simp only [Option.some.injEq] at hstep
        rw [← hstep]
        exact sysWF_setCond s r0.condRef _ hwf

/-- What a scope observes through its references: its own condition map
and middleware list. -/
def routerView {Mw : Type} (s : Sys Mw) (p : Nat) :
    Option (List (Nat × (String → Bool)) × List Mw) :=
  (s.routers.get? p).map fun ro => (getCondCell s ro.condRef, getMwCell s ro.mwRef)

/-- The operation does not mutate scope `p`: it may clone anything,
create routes anywhere, and mutate any other scope or any route. -/
def opAvoids {Mw : Type} : Op Mw → Nat → Prop
  | .use r _, p => r ≠ p
  | .whereFunc r _ _, p => r ≠ p
  | _, _ => True

theorem stepOp_preserves_view {Mw : Type} {s s' : Sys Mw} {op : Op Mw} {p : Nat}
    (hwf : sysWF s) (hp : p < s.routers.length)
    (hstep : stepOp s op = some s') (havoid : opAvoids op p) :
    routerView s' p = routerView s p ∧ p < s'.routers.length := by
  obtain ⟨hb1, hb2, hn1, hn2⟩ := hwf
  obtain ⟨rop, hrop⟩ : ∃ rop, s.routers.get? p = some rop := by
    match hg : s.routers.get? p with
    | some rop => exact ⟨rop, rfl⟩
    | none =>
      rw [List.get?_eq_none] at hg
      omega
  have hropm : rop ∈ s.routers := List.get?_mem hrop
  have hcb : rop.condRef < s.conds.length := by
    apply hb1
    rw [condOwners, List.mem_append]
    exact Or.inl (List.mem_map.mpr ⟨rop, hropm, rfl⟩)
  have hmb : rop.mwRef < s.mws.length := by
    apply hb2
    rw [mwOwners]
    exact List.mem_map.mpr ⟨rop, hropm, rfl⟩
  match op with
  | .group r =>
    rw [stepOp] at hstep
    match hr : s.routers.get? r with
    | none => rw [hr] at hstep; simp at hstep
    | some ro =>
      rw [hr] at hstep
      simp only [Option.some.injEq] at hstep
      subst hstep
      constructor
      · rw [routerView, routerView, hrop]
        have hg2 : (cloneScope s ro ro.pfx).routers.get? p = some rop := by
          rw [cloneScope]
          simp only []
          rw [List.get?_append hp]
          exact hrop
        rw [hg2]
        simp only [Option.map_some', Option.some.injEq]
        rw [getCondCell, getMwCell, getCondCell, getMwCell, cloneScope]
        simp only []
        rw [getD_append_lt _ _ _ _ hcb, getD_append_lt _ _ _ _ hmb]
      · rw [cloneScope]
        simp only [List.length_append]
        omega
  | .prefixOp r path =>
    rw [stepOp] at hstep
    match hr : s.routers.get? r with
    | none => rw [hr] at hstep; simp at hstep
    | some ro =>
      rw [hr] at hstep
      simp only [Option.some.injEq] at hstep
      subst hstep
      constructor
      · rw [routerView, routerView, hrop]
        have hg2 : (cloneScope s ro (ro.pfx ++ path)).routers.get? p = some rop := by
          rw [cloneScope]
          simp only []
          rw [List.get?_append hp]
          exact hrop
        rw [hg2]
        simp only [Option.map_some', Option.some.injEq]
        rw [getCondCell, getMwCell, getCondCell, getMwCell, cloneScope]
        simp only []
        rw [getD_append_lt _ _ _ _ hcb, getD_append_lt _ _ _ _ hmb]
      · rw [cloneScope]
        simp only [List.length_append]
        omega
  | .use r ms =>
    rw [stepOp] at hstep
    match hr : s.routers.get? r with
    | none => rw [hr] at hstep; simp at hstep
    | some ro =>
      rw [hr] at hstep
      simp only [Option.some.injEq] at hstep
      subst hstep
      have hrp : r ≠ p := havoid
      have hmne : ro.mwRef ≠ rop.mwRef := by
        have := @nodup_map_get_ne _ _ RouterObj.mwRef _ hn2 _ _ _ _ hr hrop hrp
        exact this
      refine ⟨?_, hp⟩
      rw [routerView, routerView, hrop]
      simp only [Option.map_some', Option.some.injEq]
      rw [getCondCell, getMwCell, getCondCell, getMwCell]
      simp only []
      rw [getD_set_ne _ _ _ _ _ hmne]
      rfl
  | .whereFunc r param f =>
    rw [stepOp] at hstep
    match hr : s.routers.get? r with
    | none => rw [hr] at hstep; simp at hstep
    | some ro =>
      rw [hr] at hstep
      simp only [] at hstep
      match hi : sliceIndexOf (paramNames ro.pfx) param with
      | none => rw [hi] at hstep; simp at hstep
      | some i =>
        rw [hi] at hstep
        simp only [Option.some.injEq] at hstep
        subst hstep
        have hrp : r ≠ p := havoid
        have hcne : ro.condRef ≠ rop.condRef := by
          have hnodl := hn1.of_append_left
          exact @nodup_map_get_ne _ _ RouterObj.condRef _ hnodl _ _ _ _ hr hrop hrp
        refine ⟨?_, hp⟩
        rw [routerView, routerView, hrop]
        simp only [Option.map_some', Option.some.injEq]
        rw [getCondCell, getMwCell, getCondCell, getMwCell]
        simp only []
        rw [getD_set_ne _ _ _ _ _ hcne]
        rfl
  | .newRoute r path =>
    rw [stepOp] at hstep
    match hr : s.routers.get? r with
    | none => rw [hr] at hstep; simp at hstep
    | some ro =>
      rw [hr] at hstep
      simp only [Option.some.injEq] at hstep
      subst hstep
      refine ⟨?_, hp⟩
      rw [routerView, routerView, hrop]
      simp only [Option.map_some', Option.some.injEq]
      rw [getCondCell, getMwCell, getCondCell, getMwCell]
      simp only []
      rw [getD_append_lt _ _ _ _ hcb]
      rfl
  | .routeWhereFunc rt param f =>
    rw [stepOp] at hstep
    match hr : s.routes.get? rt with
    | none => rw [hr] at hstep; simp at hstep
    | some r0 =>
      rw [hr] at hstep
      simp only [] at hstep
      match hi : sliceIndexOf (paramNames r0.pat) param with
      | none => rw [hi] at hstep; simp at hstep
      | some i =>
        rw [hi] at hstep
        simp only [Option.some.injEq] at hstep
        subst hstep
        have hcne : r0.condRef ≠ rop.condRef := by
          have hdisj := List.disjoint_of_nodup_append hn1
          intro heq
          apply hdisj (List.mem_map.mpr ⟨rop, hropm, rfl⟩)
          rw [← heq]
          exact List.mem_map.mpr ⟨r0, List.get?_mem hr, rfl⟩
        refine ⟨?_, hp⟩
        rw [routerView, routerView, hrop]
        simp only [Option.map_some', Option.some.injEq]
        rw [getCondCell, getMwCell, getCondCell, getMwCell]
        simp only []
        rw [getD_set_ne _ _ _ _ _ hcne]
        rfl

/-- C7: after cloning, no sequence of operations that mutates only other
scopes (the clone, further clones, siblings) or routes ever changes the
parent scope's condition set or middleware chain: its view is exactly
its view at cloning time. -/
theorem c7_clone_isolation {Mw : Type} (s : Sys Mw) (p : Nat) (ops : List (Op Mw))
    (s' : Sys Mw) (hwf : sysWF s) (hp : p < s.routers.length)
    (hrun : runOps s ops = some s') (havoid : ∀ op ∈ ops, opAvoids op p) :
    routerView s' p = routerView s p := by
  induction ops generalizing s with
  | nil =>
    rw [runOps] at hrun
    simp only [Option.some.injEq] at hrun
    rw [hrun]
  | cons op ops ih =>
    rw [runOps] at hrun
    match hstep : stepOp s op with
    | none => rw [hstep] at hrun; simp at hrun
    | some s1 =>
      rw [hstep] at hrun
      have hv := stepOp_preserves_view hwf hp hstep (havoid op (by simp))
      have hwf1 := stepOp_wf hwf hstep
      have := ih s1 hwf1 hv.2 hrun (fun x hx => havoid x (List.mem_cons_of_mem op hx))
      rw [this, hv.1]

theorem getD_set_self {α : Type} (l : List α) (v d : α) (i : Nat) (h : i < l.length) :
    (l.set i v).getD i d = v := by
  rw [List.getD_eq_getD_get?, List.get?_eq_getElem?, List.getElem?_set_self h]
  rfl

theorem nodup_map_mem_inj {α β : Type} {f : α → β} {l : List α}
    (hnd : (l.map f).Nodup) {x y : α} (hx : x ∈ l) (hy : y ∈ l) (hf : f x = f y) :
    x = y := by
  induction l with
  | nil => simp at hx
  | cons a t ih =>
    simp only [List.map_cons, List.nodup_cons] at hnd
    rcases List.mem_cons.mp hx with hx' | hx' <;> rcases List.mem_cons.mp hy with hy' | hy'
    · rw [hx', hy']
    · exfalso
      apply hnd.1
      rw [← hx', hf]
      exact List.mem_map.mpr ⟨y, hy', rfl⟩
    · exfalso
      apply hnd.1
      rw [← hy', ← hf]
      exact List.mem_map.mpr ⟨x, hx', rfl⟩
    · exact ih hnd.2 hx' hy'

/-- Every condition index registered on a scope lies inside its prefix's
parameter list, and every condition index registered on a route lies
inside its pattern's parameter list. -/
def sysCondInv {Mw : Type} (s : Sys Mw) : Prop :=
  (∀ ro ∈ s.routers, ∀ kf ∈ getCondCell s ro.condRef, kf.1 < (paramNames ro.pfx).length)
  ∧ ∀ rt ∈ s.routes, ∀ kf ∈ getCondCell s rt.condRef, kf.1 < (paramNames rt.pat).length

theorem paramNames_length_le_append (xs ys : List Char) :
    (paramNames xs).length ≤ (paramNames (xs ++ ys)).length := by
  rw [paramNames, paramNames]
  simp only [List.length_map]
  exact (findPlaceholders_append_mono xs ys).length_le

theorem sysInit_condInv {Mw : Type} : sysCondInv ((sysInit : Sys Mw)) := by
  constructor
  · intro ro hro kf hkf
    simp only [sysInit, List.mem_singleton] at hro
    rw [hro, getCondCell] at hkf
    simp [sysInit] at hkf
  · intro rt hrt
    simp [sysInit] at hrt

theorem getCondCell_cloneScope_old {Mw : Type} {s : Sys Mw} (ro : RouterObj)
    (newPfx : List Char) {ref : Nat} (href : ref < s.conds.length) :
    getCondCell (cloneScope s ro newPfx) ref = getCondCell s ref := by
  rw [getCondCell, getCondCell, cloneScope]
  exact getD_append_lt _ _ _ _ href

theorem stepOp_condInv {Mw : Type} {s s' : Sys Mw} {op : Op Mw}
    (hwf : sysWF s) (hinv : sysCondInv s) (hstep : stepOp s op = some s') :
    sysCondInv s' := by
  obtain ⟨hb1, hb2, hn1, hn2⟩ := hwf
  obtain ⟨hir, hit⟩ := hinv
  have hrb : ∀ ro ∈ s.routers, ro.condRef < s.conds.length := by
    intro ro hro
    apply hb1
    rw [condOwners, List.mem_append]
    exact Or.inl (List.mem_map.mpr ⟨ro, hro, rfl⟩)
  have htb : ∀ rt ∈ s.routes, rt.condRef < s.conds.length := by
    intro rt hrt
    apply hb1
    rw [condOwners, List.mem_append]
    exact Or.inr (List.mem_map.mpr ⟨rt, hrt, rfl⟩)
  match op with
  | .group r =>
    rw [stepOp] at hstep
    match hr : s.routers.get? r with
    | none => rw [hr] at hstep; simp at hstep
    | some ro =>
      rw [hr] at hstep
      simp only [Option.some.injEq] at hstep
      subst hstep
      have hrom := List.get?_mem hr
      constructor
      · intro x hx kf hkf
        rw [cloneScope] at hx
        simp only [List.mem_append, List.mem_singleton] at hx
        rcases hx with hx | hx
        · rw [getCondCell_cloneScope_old ro ro.pfx (hrb x hx)] at hkf
          exact hir x hx kf hkf
        · subst hx
          simp only []
          rw [getCondCell, cloneScope] at hkf
          simp only [] at hkf
          rw [List.getD_eq_getD_get?, List.get?_concat_length] at hkf
          simp only [Option.getD_some] at hkf
          exact hir ro hrom kf hkf
      · intro rt hrt kf hkf
        rw [cloneScope] at hrt
        simp only [] at hrt
        rw [getCondCell_cloneScope_old ro ro.pfx (htb rt hrt)] at hkf
        exact hit rt hrt kf hkf
  | .prefixOp r path =>
    rw [stepOp] at hstep
    match hr : s.routers.get? r with
    | none => rw [hr] at hstep; simp at hstep
    | some ro =>
      rw [hr] at hstep
      simp only [Option.some.injEq] at hstep
      subst hstep
      have hrom := List.get?_mem hr
      constructor
      · intro x hx kf hkf
        rw [cloneScope] at hx
        simp only [List.mem_append, List.mem_singleton] at hx
        rcases hx with hx | hx
        · rw [getCondCell_cloneScope_old ro (ro.pfx ++ path) (hrb x hx)] at hkf
          exact hir x hx kf hkf
        · subst hx
          simp only []
          rw [getCondCell, cloneScope] at hkf
          simp only [] at hkf
          rw [List.getD_eq_getD_get?, List.get?_concat_length] at hkf
          simp only [Option.getD_some] at hkf
          have := hir ro hrom kf hkf
          have hle := paramNames_length_le_append ro.pfx path
          omega
      · intro rt hrt kf hkf
        rw [cloneScope] at hrt
        simp only [] at hrt
        rw [getCondCell_cloneScope_old ro (ro.pfx ++ path) (htb rt hrt)] at hkf
        exact hit rt hrt kf hkf
  | .use r ms =>
    rw [stepOp] at hstep
    match hr : s.routers.get? r with
    | none => rw [hr] at hstep; simp at hstep
    | some ro =>
      rw [hr] at hstep
      simp only [Option.some.injEq] at hstep
      subst hstep
      exact ⟨fun x hx => hir x hx, fun rt hrt => hit rt hrt⟩
  | .whereFunc r param f =>
    rw [stepOp] at hstep
    match hr : s.routers.get? r with
    | none => rw [hr] at hstep; simp at hstep
    | some ro =>
      rw [hr] at hstep
      simp only [] at hstep
      match hi : sliceIndexOf (paramNames ro.pfx) param with
      | none => rw [hi] at hstep; simp at hstep
      | some i =>
        rw [hi] at hstep
        simp only [Option.some.injEq] at hstep
        subst hstep
        have hrom := List.get?_mem hr
        have hilt : i < (paramNames ro.pfx).length := sliceIndexOf_lt hi
        constructor
        · intro x hx kf hkf
          simp only [] at hx hkf
          by_cases hc : x.condRef = ro.condRef
          · have hxro : x = ro :=
              nodup_map_mem_inj hn1.of_append_left hx hrom hc
            rw [getCondCell, hc, getD_set_self _ _ _ _ (hrb ro hrom)] at hkf
            rw [condSet] at hkf
            rw [hxro]
            rcases List.mem_cons.mp hkf with hkf | hkf
            · rw [hkf]
              exact hilt
            · exact hir ro hrom kf (List.mem_of_mem_filter hkf)
          · rw [getCondCell, getD_set_ne _ _ _ _ _ (fun h => hc h.symm)] at hkf
            exact hir x hx kf hkf
        · intro rt hrt kf hkf
          simp only [] at hrt hkf
          have hcne : rt.condRef ≠ ro.condRef := by
            intro heq
            have hdisj := List.disjoint_of_nodup_append hn1
            exact hdisj (List.mem_map.mpr ⟨ro, hrom, rfl⟩)
              (by rw [← heq]; exact List.mem_map.mpr ⟨rt, hrt, rfl⟩)
          rw [getCondCell, getD_set_ne _ _ _ _ _ (fun h => hcne h.symm)] at hkf
          exact hit rt hrt kf hkf
  | .newRoute r path =>
    rw [stepOp] at hstep
    match hr : s.routers.get? r with
    | none => rw [hr] at hstep; simp at hstep
    | some ro =>
      rw [hr] at hstep
      simp only [Option.some.injEq] at hstep
      subst hstep
      have hrom := List.get?_mem hr
      constructor
      · intro x hx kf hkf
        simp only [] at hx hkf
        rw [getCondCell, getD_append_lt _ _ _ _ (hrb x hx)] at hkf
        exact hir x hx kf hkf
      · intro rt hrt kf hkf
        simp only [List.mem_append, List.mem_singleton] at hrt
        rcases hrt with hrt | hrt
        · rw [getCondCell, getD_append_lt _ _ _ _ (htb rt hrt)] at hkf
          exact hit rt hrt kf hkf
        · subst hrt
          simp only [] at hkf
          rw [getCondCell] at hkf
          simp only [] at hkf
          rw [List.getD_eq_getD_get?, List.get?_concat_length] at hkf
          simp only [Option.getD_some] at hkf
          have := hir ro hrom kf hkf
          have hle := paramNames_length_le_append ro.pfx path
          show kf.1 < (paramNames (ro.pfx ++ path)).length
          omega
  | .routeWhereFunc rt param f =>
    rw [stepOp] at hstep
    match hr : s.routes.get? rt with
    | none => rw [hr] at hstep; simp at hstep
    | some r0 =>
      rw [hr] at hstep
      simp only [] at hstep
      match hi : sliceIndexOf (paramNames r0.pat) param with
      | none => rw [hi] at hstep; simp at hstep
      | some i =>
        rw [hi] at hstep
        simp only [Option.some.injEq] at hstep
        subst hstep
        have hr0m := List.get?_mem hr
        have hilt : i < (paramNames r0.pat).length := sliceIndexOf_lt hi
        constructor
        · intro x hx kf hkf
          simp only [] at hx hkf
          have hcne : x.condRef ≠ r0.condRef := by
            intro heq
            have hdisj := List.disjoint_of_nodup_append hn1
            exact hdisj (List.mem_map.mpr ⟨x, hx, rfl⟩)
              (by rw [heq]; exact List.mem_map.mpr ⟨r0, hr0m, rfl⟩)
          rw [getCondCell, getD_set_ne _ _ _ _ _ (fun h => hcne h.symm)] at hkf
          exact hir x hx kf hkf
        · intro y hy kf hkf
          simp only [] at hy hkf
          by_cases hc : y.condRef = r0.condRef
          · have hyr : y = r0 :=
              nodup_map_mem_inj hn1.of_append_right hy hr0m hc
            rw [getCondCell, hc, getD_set_self _ _ _ _ (htb r0 hr0m)] at hkf
            rw [condSet] at hkf
            rw [hyr]
            rcases List.mem_cons.mp hkf with hkf | hkf
            · rw [hkf]
              exact hilt
            · exact hit r0 hr0m kf (List.mem_of_mem_filter hkf)
          · rw [getCondCell, getD_set_ne _ _ _ _ _ (fun h => hc h.symm)] at hkf
            exact hit y hy kf hkf

theorem runOps_wf_condInv {Mw : Type} :
    ∀ (ops : List (Op Mw)) (s s' : Sys Mw), sysWF s → sysCondInv s →
    runOps s ops = some s' → sysWF s' ∧ sysCondInv s' := by
  intro ops
  induction ops with
  | nil =>
    intro s s' hwf hinv hrun
    rw [runOps] at hrun
    simp only [Option.some.injEq] at hrun
    rw [← hrun]
    exact ⟨hwf, hinv⟩
  | cons op ops ih =>
    intro s s' hwf hinv hrun
    rw [runOps] at hrun
    match hstep : stepOp s op with
    | none => rw [hstep] at hrun; simp at hrun
    | some s1 =>
      rw [hstep] at hrun
      exact ih s1 s' (stepOp_wf hwf hstep) (stepOp_condInv hwf hinv hstep) hrun

/-- C10: along every run of the public builder API from a fresh router,
every route's registered condition indices are strictly below the number
of placeholders of the route's compiled pattern, and consequently the
condition match never reads out of range — it cannot fault — whenever it
receives one captured value per placeholder. -/
theorem c10_condition_indices_safe {Mw : Type} (ops : List (Op Mw)) (s' : Sys Mw)
    (hrun : runOps ((sysInit : Sys Mw)) ops = some s') :
    ∀ rt ∈ s'.routes,
      (∀ kf ∈ getCondCell s' rt.condRef, kf.1 < (paramNames rt.pat).length)
      ∧ ∀ params : List String, params.length = (paramNames rt.pat).length →
          condMatch (getCondCell s' rt.condRef) params ≠ none := by
  obtain ⟨hwf', hinv'⟩ := runOps_wf_condInv ops sysInit s' sysInit_wf sysInit_condInv hrun
  intro rt hrt
  have hbound := hinv'.2 rt hrt
  refine ⟨hbound, ?_⟩
  intro params hlen
  apply condMatch_isSome
  intro kf hkf
  have := hbound kf hkf
  omega

/-!
Registration and dispatch.  `addRoute` compiles the route's pattern once
and then, for each of the route's methods, fetches the key's candidate
list from the shared route map (creating it empty when absent),
registers one dispatch adapter with the external matcher exactly when
the list is empty, and appends the route.  The adapter closes over the
candidate list by reference — at request time it sees the final list —
and over the handler produced by `newHandler`, which wraps the dispatch
closure in the middleware chain of the scope that performed this first
registration.  Handlers are modelled by their denotations (type `H`) and
middleware as handler transformers; each event carries the route's data
as dispatch will see it.
-/

/-- One `addRoute` call: the route's methods, its compiled pattern, the
registering scope's middleware chain, and the route's dispatch data. -/
structure RegEvent (Mw H : Type) where
  methods : List String
  pat : List Char
  mw : List Mw
  route : RouteC H

/-- One registration with the external matcher. -/
structure MatcherEntry (Mw : Type) where
  method : String
  pat : List Char
  mw : List Mw

/-- The shared registries: matcher registrations and the route map. -/
structure RegState (Mw H : Type) where
  regs : List (MatcherEntry Mw)
  cands : List ((String × List Char) × List (RouteC H))

/-- Route-map read, creating nothing: an absent key reads as the empty
list (the source's `routeMap.get` allocates it, observationally the
same). -/
def assocGet {H : Type} (l : List ((String × List Char) × List (RouteC H)))
    (k : String × List Char) : List (RouteC H) :=
  match l with
  | [] => []
  | e :: t => if e.1 = k then e.2 else assocGet t k

/-- Route-map write. -/
def assocSet {H : Type} (l : List ((String × List Char) × List (RouteC H)))
    (k : String × List Char) (v : List (RouteC H)) :
    List ((String × List Char) × List (RouteC H)) :=
  match l with
  | [] => [(k, v)]
  | e :: t => if e.1 = k then (k, v) :: t else e :: assocSet t k v

/-- The loop body of `addRoute` for a single method. -/
def addOne {Mw H : Type} (pat : List Char) (mw : List Mw) (route : RouteC H)
    (st : RegState Mw H) (method : String) : RegState Mw H :=
  let key := (method, pat)
  let cur := assocGet st.cands key
  { regs := if cur.isEmpty then st.regs ++ [⟨method, pat, mw⟩] else st.regs,
    cands := assocSet st.cands key (cur ++ [route]) }

/-- `Router.addRoute`. -/
def addRoute {Mw H : Type} (st : RegState Mw H) (ev : RegEvent Mw H) : RegState Mw H :=
  ev.methods.foldl (addOne ev.pat ev.mw ev.route) st

/-- The empty registries of a fresh router. -/
def regInit {Mw H : Type} : RegState Mw H := ⟨[], []⟩

/-- Replay a registration history. -/
def applyEvents {Mw H : Type} (evs : List (RegEvent Mw H)) : RegState Mw H :=
  evs.foldl addRoute regInit

/-- The matcher registrations for one key, in order. -/
def regsFor {Mw H : Type} (st : RegState Mw H) (k : String × List Char) :
    List (MatcherEntry Mw) :=
  st.regs.filter fun e => (e.method, e.pat) = k

/-- The middleware chain of the adapter registered for a key:
the source registers at most one per key. -/
def adapterMw {Mw H : Type} (st : RegState Mw H) (k : String × List Char) :
    Option (List Mw) :=
  (regsFor st k).head?.map MatcherEntry.mw

/-- The candidates one event contributes to a key: its route once per
matching method, in method order. -/
def eventContrib {Mw H : Type} (ev : RegEvent Mw H) (k : String × List Char) :
    List (RouteC H) :=
  if ev.pat = k.2 then (ev.methods.filter fun m => m = k.1).map (fun _ => ev.route) else []

/-- All candidates a history contributes to a key, in registration order. -/
def candidatesFormula {Mw H : Type} (evs : List (RegEvent Mw H))
    (k : String × List Char) : List (RouteC H) :=
  (evs.map fun ev => eventContrib ev k).flatten

/-- The first event of the history that claims the key. -/
def firstClaimant {Mw H : Type} (evs : List (RegEvent Mw H)) (k : String × List Char) :
    Option (RegEvent Mw H) :=
  evs.find? fun ev => decide (ev.pat = k.2) && ev.methods.contains k.1

/-- Request-time dispatch through the model: look up the adapter the
matcher holds for the key (`none` when no adapter was ever registered),
then run the handler `newHandler` built — the first-registering scope's
middleware wrapped once around a closure that scans the key's final
candidate list and serves the chosen route's handler, or the router's
not-found handler when no candidate accepts. -/
def runDispatch {H : Type} (st : RegState (H → H) H) (k : String × List Char)
    (params : List String) (notFound : H) : Option (Except Unit H) :=
  match adapterMw st k with
  | none => none
  | some mw =>
    some (match routeListMatch (assocGet st.cands k) params with
      | .error () => .error ()
      | .ok (some r) => .ok (middlewareWrap mw (r.handler.getD notFound))
      | .ok none => .ok (middlewareWrap mw notFound))

theorem assocGet_set_self {H : Type} (l : List ((String × List Char) × List (RouteC H)))
    (k : String × List Char) (v : List (RouteC H)) :
    assocGet (assocSet l k v) k = v := by
  induction l with
  | nil => simp [assocGet, assocSet]
  | cons e t ih =>
    by_cases h : e.1 = k
    · simp [assocGet, assocSet, h]
    · simp [assocGet, assocSet, h, ih]

theorem assocGet_set_ne {H : Type} (l : List ((String × List Char) × List (RouteC H)))
    (k k' : String × List Char) (v : List (RouteC H)) (hne : k ≠ k') :
    assocGet (assocSet l k v) k' = assocGet l k' := by
  induction l with
  | nil => simp [assocGet, assocSet, hne]
  | cons e t ih =>
    by_cases h : e.1 = k
    · simp [assocGet, assocSet, h, hne]
    · simp only [assocSet, if_neg h]
      by_cases h' : e.1 = k'
      · simp [assocGet, h']
      · simp [assocGet, h', ih]

/-- Effect of one method registration on a key's candidate list. -/
theorem addOne_cands {Mw H : Type} (pat : List Char) (mw : List Mw) (route : RouteC H)
    (st : RegState Mw H) (m : String) (k : String × List Char) :
    assocGet (addOne pat mw route st m).cands k
      = if (m, pat) = k then assocGet st.cands k ++ [route] else assocGet st.cands k := by
  by_cases h : (m, pat) = k
  · simp only [addOne, if_pos h, h]
    exact assocGet_set_self _ _ _
  · simp only [addOne, if_neg h]
    exact assocGet_set_ne _ _ _ _ h

/-- Effect of one method registration on a key's matcher registrations. -/
theorem addOne_regs {Mw H : Type} (pat : List Char) (mw : List Mw) (route : RouteC H)
    (st : RegState Mw H) (m : String) (k : String × List Char) :
    regsFor (addOne pat mw route st m) k
      = regsFor st k ++
          (if (m, pat) = k ∧ (assocGet st.cands (m, pat)).isEmpty = true
           then [⟨k.1, k.2, mw⟩] else []) := by
  by_cases he : (assocGet st.cands (m, pat)).isEmpty = true
  · simp only [addOne, regsFor, he, if_true, List.filter_append, and_true]
    by_cases hk : (m, pat) = k
    · rw [if_pos hk]
      congr 1
      obtain ⟨k1, k2⟩ := k
      cases hk
      simp [List.filter]
    · rw [if_neg hk]
      have hnil : List.filter (fun e => decide ((e.method, e.pat) = k))
          [(⟨m, pat, mw⟩ : MatcherEntry Mw)] = [] := by
        simp [List.filter, hk]
      rw [hnil]
  · simp only [addOne, regsFor, he, Bool.false_eq_true, if_false]
    rw [if_neg (fun hc => hc.2), List.append_nil]

/-- Effect of a full `addRoute` on a key's candidate list: the route is
appended once per method naming the key, in method order. -/
theorem addRoute_cands {Mw H : Type} (pat : List Char) (mw : List Mw) (route : RouteC H)
    (k : String × List Char) :
    ∀ (ms : List String) (st : RegState Mw H),
      assocGet (ms.foldl (addOne pat mw route) st).cands k
        = assocGet st.cands k ++ (ms.filter fun m => (m, pat) = k).map (fun _ => route) := by
  intro ms
  induction ms with
  | nil => intro st; simp
  | cons m ms ih =>
    intro st
    rw [List.foldl_cons, ih, addOne_cands]
    by_cases hk : (m, pat) = k
    · rw [if_pos hk, List.append_assoc]
      congr 1
      have : List.filter (fun m => decide ((m, pat) = k)) (m :: ms)
          = m :: List.filter (fun m => decide ((m, pat) = k)) ms := by
        simp [List.filter, hk]
      rw [this, List.map_cons]
      rfl
    · rw [if_neg hk]
      congr 1
      have : List.filter (fun m => decide ((m, pat) = k)) (m :: ms)
          = List.filter (fun m => decide ((m, pat) = k)) ms := by
        simp [List.filter, hk]
      rw [this]

/-- Effect of a full `addRoute` on a key's matcher registrations: one
adapter entry when some method names the key and the key's candidate
list was still empty; nothing otherwise. -/
theorem addRoute_regs {Mw H : Type} (pat : List Char) (mw : List Mw) (route : RouteC H)
    (k : String × List Char) :
    ∀ (ms : List String) (st : RegState Mw H),
      regsFor (ms.foldl (addOne pat mw route) st) k
        = regsFor st k ++
            (if pat = k.2 ∧ k.1 ∈ ms ∧ (assocGet st.cands k).isEmpty = true
             then [⟨k.1, k.2, mw⟩] else []) := by
  intro ms
  induction ms with
  | nil =>
    intro st
    rw [List.foldl_nil, if_neg, List.append_nil]
    intro hc
    exact absurd hc.2.1 (List.not_mem_nil k.1)
  | cons m ms ih =>
    intro st
    rw [List.foldl_cons, ih, addOne_regs, List.append_assoc]
    congr 1
    by_cases hk : (m, pat) = k
    · obtain ⟨k1, k2⟩ := k
      injection hk with hm hp
      subst hm; subst hp
      by_cases he : (assocGet st.cands (m, pat)).isEmpty = true
      · rw [if_pos ⟨rfl, he⟩]
        have hnE : (assocGet (addOne pat mw route st m).cands (m, pat)).isEmpty = false := by
          rw [addOne_cands, if_pos rfl]
          cases assocGet st.cands (m, pat) <;> rfl
        rw [if_neg (fun hc => Bool.false_ne_true (hnE.symm.trans hc.2.2)),
          if_pos ⟨rfl, List.mem_cons_self m ms, he⟩, List.append_nil]
      · rw [if_neg (fun hc => he hc.2), List.nil_append]
        have hsame : (assocGet (addOne pat mw route st m).cands (m, pat)).isEmpty
            = (assocGet st.cands (m, pat)).isEmpty := by
          rw [addOne_cands, if_pos rfl]
          cases hE : assocGet st.cands (m, pat) with
          | nil => exact absurd (by rw [hE]; rfl) he
          | cons a t => rfl
        rw [hsame]
        by_cases hrest : pat = pat ∧ m ∈ ms ∧ (assocGet st.cands (m, pat)).isEmpty = true
        · exact absurd hrest.2.2 he
        · rw [if_neg hrest, if_neg (fun hc => he hc.2.2)]
    · rw [if_neg (fun hc => hk hc.1), List.nil_append]
      have hsame : (assocGet (addOne pat mw route st m).cands k).isEmpty
          = (assocGet st.cands k).isEmpty := by
        rw [addOne_cands, if_neg hk]
      rw [hsame]
      by_cases hp : pat = k.2
      · have hm : m ≠ k.1 := by
          intro hm
          exact hk (by rw [hm, hp])
        by_cases hrest : pat = k.2 ∧ k.1 ∈ ms ∧ (assocGet st.cands k).isEmpty = true
        · rw [if_pos hrest,
            if_pos ⟨hrest.1, List.mem_cons_of_mem m hrest.2.1, hrest.2.2⟩]
        · rw [if_neg hrest, if_neg]
          intro hc
          rcases List.mem_cons.mp hc.2.1 with h1 | h1
          · exact hm h1.symm
          · exact hrest ⟨hc.1, h1, hc.2.2⟩
      · rw [if_neg (fun hc => hp hc.1), if_neg (fun hc => hp hc.1)]

/-- The per-method filter of `addRoute` computes exactly the event's
contribution to the key. -/
theorem filter_map_eq_contrib {Mw H : Type} (ev : RegEvent Mw H) (k : String × List Char) :
    (ev.methods.filter fun m => (m, ev.pat) = k).map (fun _ => ev.route)
      = eventContrib ev k := by
  obtain ⟨k1, k2⟩ := k
  by_cases hp : ev.pat = k2
  · rw [eventContrib, if_pos hp]
    congr 1
    apply List.filter_congr
    intro m _
    simp [Prod.ext_iff, hp]
  · rw [eventContrib, if_neg hp]
    have : List.filter (fun m => decide ((m, ev.pat) = (k1, k2))) ev.methods = [] := by
      rw [List.filter_eq_nil_iff]
      intro m _
      simp [Prod.ext_iff, hp]
    rw [this, List.map_nil]

/-- A non-claiming event contributes no candidate. -/
theorem eventContrib_nil {Mw H : Type} (ev : RegEvent Mw H) (k : String × List Char)
    (h : ¬(ev.pat = k.2 ∧ k.1 ∈ ev.methods)) : eventContrib ev k = [] := by
  rw [eventContrib]
  by_cases hp : ev.pat = k.2
  · rw [if_pos hp, List.map_eq_nil_iff, List.filter_eq_nil_iff]
    intro m hm hq
    exact h ⟨hp, of_decide_eq_true hq ▸ hm⟩
  · exact if_neg hp

/-- A claiming event contributes at least one candidate. -/
theorem eventContrib_ne_nil {Mw H : Type} (ev : RegEvent Mw H) (k : String × List Char)
    (hp : ev.pat = k.2) (hm : k.1 ∈ ev.methods) : eventContrib ev k ≠ [] := by
  rw [eventContrib, if_pos hp]
  intro hc
  rw [List.map_eq_nil_iff, List.filter_eq_nil_iff] at hc
  exact hc k.1 hm (by simp)

/-- Candidate lists after replaying a history: each key's list is the
concatenation, in order, of what each event contributed. -/
theorem foldl_addRoute_cands {Mw H : Type} (k : String × List Char) :
    ∀ (evs : List (RegEvent Mw H)) (st : RegState Mw H),
      assocGet (evs.foldl addRoute st).cands k
        = assocGet st.cands k ++ candidatesFormula evs k := by
  intro evs
  induction evs with
  | nil => intro st; simp [candidatesFormula]
  | cons ev evs ih =>
    intro st
    rw [List.foldl_cons, ih, addRoute, addRoute_cands, filter_map_eq_contrib,
      List.append_assoc]
    rfl

/-- Matcher registrations after replaying a history: starting from an
empty candidate list, the key carries exactly one adapter entry — the
first claiming event's, with that event's middleware — and none when no
event claims it. -/
theorem foldl_addRoute_regs {Mw H : Type} (k : String × List Char) :
    ∀ (evs : List (RegEvent Mw H)) (st : RegState Mw H),
      regsFor (evs.foldl addRoute st) k
        = regsFor st k ++
            (if (assocGet st.cands k).isEmpty = true then
              (match firstClaimant evs k with
               | some ev => [⟨k.1, k.2, ev.mw⟩]
               | none => [])
             else []) := by
  intro evs
  induction evs with
  | nil =>
    intro st
    rw [List.foldl_nil, firstClaimant, List.find?_nil]
    rw [ite_self, List.append_nil]
  | cons ev evs ih =>
    intro st
    rw [List.foldl_cons, ih]
    have hreg : regsFor (addRoute st ev) k
        = regsFor st k ++
            (if ev.pat = k.2 ∧ k.1 ∈ ev.methods ∧ (assocGet st.cands k).isEmpty = true
             then [⟨k.1, k.2, ev.mw⟩] else []) :=
      addRoute_regs ev.pat ev.mw ev.route k ev.methods st
    rw [hreg, List.append_assoc]
    congr 1
    have hcand : assocGet (addRoute st ev).cands k
        = assocGet st.cands k ++ eventContrib ev k := by
      rw [addRoute, addRoute_cands, filter_map_eq_contrib]
    by_cases hc : ev.pat = k.2 ∧ k.1 ∈ ev.methods
    · have hfind : firstClaimant (ev :: evs) k = some ev := by
        rw [firstClaimant, List.find?_cons_of_pos]
        simp [hc.1, hc.2]
      rw [hfind]
      by_cases he : (assocGet st.cands k).isEmpty = true
      · rw [if_pos ⟨hc.1, hc.2, he⟩, if_pos he]
        have hne : (assocGet (addRoute st ev).cands k).isEmpty = false := by
          rw [hcand]
          have := eventContrib_ne_nil ev k hc.1 hc.2
          cases hE : assocGet st.cands k ++ eventContrib ev k with
          | nil =>
            rcases List.append_eq_nil.mp hE with ⟨-, h2⟩
            exact absurd h2 this
          | cons a t => rfl
        rw [if_neg (fun h => Bool.false_ne_true (hne.symm.trans h)), List.append_nil]
      · rw [if_neg (fun h => he h.2.2), if_neg he, List.nil_append]
        have hne : (assocGet (addRoute st ev).cands k).isEmpty = false := by
          rw [hcand]
          cases hE : assocGet st.cands k with
          | nil => exact absurd (by rw [hE]; rfl) he
          | cons a t => rfl
        rw [if_neg (fun h => Bool.false_ne_true (hne.symm.trans h))]
    · have hfind : firstClaimant (ev :: evs) k = firstClaimant evs k := by
        rw [firstClaimant, List.find?_cons_of_neg, firstClaimant]
        simp only [Bool.and_eq_true, decide_eq_true_eq]
        intro h
        exact hc ⟨h.1, List.elem_iff.mp h.2⟩
      rw [hfind, if_neg (fun h => hc ⟨h.1, h.2.1⟩), List.nil_append]
      have hsame : assocGet (addRoute st ev).cands k = assocGet st.cands k := by
        rw [hcand, eventContrib_nil ev k hc, List.append_nil]
      rw [hsame]

/-- On a fresh router the candidate list for a key is exactly the
claimed routes in registration order. -/
theorem applyEvents_cands {Mw H : Type} (evs : List (RegEvent Mw H))
    (k : String × List Char) :
    assocGet (applyEvents evs).cands k = candidatesFormula evs k := by
  rw [applyEvents, foldl_addRoute_cands]
  rfl

/-- On a fresh router the registrations for a key are the first
claimant's single adapter entry, or none. -/
theorem applyEvents_regs {Mw H : Type} (evs : List (RegEvent Mw H))
    (k : String × List Char) :
    regsFor (applyEvents evs) k
      = (match firstClaimant evs k with
         | some ev => [⟨k.1, k.2, ev.mw⟩]
         | none => []) := by
  rw [applyEvents, foldl_addRoute_regs]
  rfl

/-- C8. For every registration history and every (method,
compiled-pattern) key: the number of dispatch handlers ever registered
with the external matcher for the key is one when some `addRoute` of the
history claims the key and zero otherwise; this holds on every prefix of
the history, and the transition from zero to one happens exactly when
the prefix first includes a claiming registration — the moment the first
route is added under the key.  Moreover the key's candidate list is the
concatenation, in registration order, of every claiming route (once per
claiming method), so later routes sharing the key are appended without a
new handler registration. -/
theorem c8_adapter_once {Mw H : Type} (evs : List (RegEvent Mw H))
    (k : String × List Char) :
    (∀ i : Nat,
        (regsFor (applyEvents (evs.take i)) k).length
          = if (firstClaimant (evs.take i) k).isSome then 1 else 0)
      ∧ assocGet (applyEvents evs).cands k = candidatesFormula evs k := by
  refine ⟨fun i => ?_, applyEvents_cands evs k⟩
  rw [applyEvents_regs]
  cases h : firstClaimant (evs.take i) k with
  | none => rfl
  | some ev => rfl

/-- C1 (amended). Dispatch for a claimed key always runs the middleware
chain captured from the FIRST scope to register a route under the key —
the chain `newHandler` wrapped around the adapter once — around the
chosen candidate's handler (or the not-found handler): the chosen
route's own scope's chain plays no role.  This corrects the claim that
each route runs under its own creation-time chain. -/
theorem c1_adapter_chain {H : Type} (evs : List (RegEvent (H → H) H))
    (k : String × List Char) (params : List String) (notFound : H)
    (ev0 : RegEvent (H → H) H) (hfc : firstClaimant evs k = some ev0) :
    runDispatch (applyEvents evs) k params notFound
      = some (match routeListMatch (candidatesFormula evs k) params with
          | .error () => .error ()
          | .ok (some r) => .ok (middlewareWrap ev0.mw (r.handler.getD notFound))
          | .ok none => .ok (middlewareWrap ev0.mw notFound)) := by
  have hmw : adapterMw (applyEvents evs) k = some ev0.mw := by
    rw [adapterMw, applyEvents_regs, hfc]
    rfl
  rw [runDispatch, hmw, applyEvents_cands]

/-- The key both counterexample scopes register under. -/
def c1key : List Char := ['/', ':', '0']

/-- Scope A's route: a condition on parameter 0, handler trace "hA". -/
def c1routeA : RouteC (List String) :=
  ⟨[(0, fun s => decide (s = "42"))], some ["hA"]⟩

/-- Scope B's route: no conditions, handler trace "hB". -/
def c1routeB : RouteC (List String) := ⟨[], some ["hB"]⟩

/-- Scope A registers first, with middleware tagging the trace "A". -/
def c1evA : RegEvent (List String → List String) (List String) :=
  ⟨["GET"], c1key, [fun t => "A" :: t], c1routeA⟩

/-- Scope B registers second under the same key, with middleware tagging
the trace "B". -/
def c1evB : RegEvent (List String → List String) (List String) :=
  ⟨["GET"], c1key, [fun t => "B" :: t], c1routeB⟩

/-- C1 counterexample: two scopes with different middleware share one
(method, compiled-pattern) key; a request failing A's condition is
dispatched to B's route, yet the executed chain is A's — the trace is
"A" before "hB", where the claim demands B's own chain ("B" before
"hB").  The spec's per-route chain reading is false on the code. -/
theorem c1_counterexample :
    runDispatch (applyEvents [c1evA, c1evB]) ("GET", c1key) ["abc"] []
        = some (.ok ["A", "hB"])
      ∧ routeListMatch (assocGet (applyEvents [c1evA, c1evB]).cands ("GET", c1key)) ["abc"]
        = .ok (some c1routeB)
      ∧ middlewareWrap c1evB.mw ["hB"] = ["B", "hB"]
      ∧ (["A", "hB"] : List String) ≠ ["B", "hB"] := by
  refine ⟨rfl, rfl, rfl, by decide⟩

/-- Witness for the amended C1 theorem at a concrete history: the first
claimant is scope A, and a request satisfying A's condition runs A's
chain around A's handler. -/
theorem c1_adapter_chain_witness :
    runDispatch (applyEvents [c1evA, c1evB]) ("GET", c1key) ["42"] []
      = some (.ok ["A", "hA"]) := by
  have h := c1_adapter_chain [c1evA, c1evB] ("GET", c1key) ["42"] [] c1evA rfl
  rw [h]
  rfl

/-- Concrete route for the C2 witness: a condition on parameter 0 and a
handler. -/
def c2r : RouteC Nat := ⟨[(0, fun s => decide (s = "a"))], some 1⟩

/-- Witness for C2 at a concrete candidate list: the first registered
route with a handler and accepting conditions is the one selected. -/
theorem c2_first_registered_wins_witness :
    routeListMatch [c2r, ⟨[], some 2⟩] ["a"] = .ok (some c2r) := by
  have hcov : ∀ r ∈ [c2r, (⟨[], some 2⟩ : RouteC Nat)], ∀ kf ∈ r.conds,
      kf.1 < (["a"] : List String).length := by
    intro r hr kf hkf
    rcases List.mem_cons.mp hr with h1 | h1
    · rw [h1] at hkf
      simp only [c2r] at hkf
      rw [List.mem_singleton.mp hkf]
      exact Nat.one_pos
    · rw [List.mem_singleton.mp h1] at hkf
      exact absurd hkf (List.not_mem_nil kf)
  have h := (c2_first_registered_wins [c2r, ⟨[], some 2⟩] ["a"] hcov).1
  rw [h]
  rfl

/-- Concrete template for the C3 witness: a literal with a reserved ':',
one single-segment placeholder and one remainder placeholder. -/
def c3tpl : List Char :=
  [slashChar, 'a', colonChar, 'p', slashChar] ++
    (lbraceChar :: 'i' :: 'd' :: [rbraceChar]) ++ [slashChar] ++
    (lbraceChar :: 'r' :: [dotChar, dotChar, dotChar, rbraceChar])

/-- Witness for C3 at a concrete template satisfying the conformance
hypotheses. -/
theorem c3_pattern_compile_witness :
    (∀ g ∈ (scanDecomp c3tpl).1, lbraceChar ∉ g)
    ∧ (paramNames c3tpl).Nodup
    ∧ ((paramNames c3tpl).length = (findPlaceholders c3tpl).length
      ∧ c3tpl = joinAlt (scanDecomp c3tpl).1 ((findPlaceholders c3tpl).map renderTok)
      ∧ httpRouterString c3tpl =
          joinAlt ((scanDecomp c3tpl).1.map stripReserved)
            ((findPlaceholders c3tpl).enum.map fun x => markerTok x.1 x.2.rem)
      ∧ ∀ g ∈ (scanDecomp c3tpl).1.map stripReserved, colonChar ∉ g ∧ starChar ∉ g) :=
  ⟨by decide, by decide, c3_pattern_compile c3tpl (by decide) (by decide)⟩

/-- Concrete condition set for the C4 witness. -/
def c4c : List (Nat × (String → Bool)) := [(0, fun s => decide (s = "v"))]

/-- Witness for C4 at a concrete condition set and covering value
list. -/
theorem c4_condition_match_witness :
    (condMatch c4c ["v"] = some true ↔
      ∀ kf ∈ c4c, kf.2 ((["v"] : List String).getD kf.1 "") = true)
    ∧ ∀ x v, (∀ kf ∈ c4c, kf.1 ≠ x) →
        condMatch c4c ((["v"] : List String).set x v) = condMatch c4c ["v"] :=
  c4_condition_match c4c ["v"] (by
    intro kf hkf
    simp only [c4c] at hkf
    rw [List.mem_singleton.mp hkf]
    exact Nat.one_pos)

/-- The placeholder token of the C5/C6 witnesses. -/
def c5tok : List Char := lbraceChar :: 'i' :: 'd' :: [rbraceChar]

/-- The template of the C5 witness. -/
def c5pat : List Char := [slashChar, 'a', slashChar] ++ c5tok

/-- The condition set of the C5 witness. -/
def c5conds : List (Nat × (String → Bool)) := [(0, fun s => decide (s = "7"))]

/-- Witness for C5 at a concrete route: one placeholder, an accepting
predicate, one extra value appended as a segment. -/
theorem c5_url_substitution_witness :
    routeUrl c5pat [c5tok] c5conds ["7", "x"] =
      ((List.zip [c5tok] ((["7", "x"] : List String).take [c5tok].length)).foldl
          (fun v ts => replaceAll v ts.1 ts.2.data) c5pat
        ++ (((["7", "x"] : List String).drop [c5tok].length).map
            fun s => slashChar :: s.data).flatten,
        none) :=
  c5_url_substitution c5pat [c5tok] c5conds ["7", "x"] (by decide)
    (by
      intro kf hkf
      simp only [c5conds] at hkf
      rw [List.mem_singleton.mp hkf]
      exact Nat.one_pos)
    (by
      intro kf hkf
      simp only [c5conds] at hkf
      rw [List.mem_singleton.mp hkf]
      rfl)

/-- Witness for C6 at a concrete call with too few values. -/
theorem c6_url_error_cases_witness :
    routeUrl c5pat [c5tok] [] [] = ([], some (.notEnoughParameters 0 1)) := by
  have h := (c6_url_error_cases c5pat [c5tok] [] []).2.1
  exact h (by decide)

/-- The operations of the C7 witness: clone scope 0, then mutate the
clone's middleware. -/
def c7ops : List (Op String) := [.group 0, .use 1 ["m"]]

/-- The state the C7 witness operations produce. -/
def c7fin : Sys String := (runOps sysInit c7ops).getD sysInit

/-- Witness for C7: after cloning scope 0 and mutating the clone, scope
0's view is unchanged. -/
theorem c7_clone_isolation_witness :
    routerView c7fin 0 = routerView (sysInit : Sys String) 0 :=
  c7_clone_isolation sysInit 0 c7ops c7fin sysInit_wf (by decide) rfl
    (by
      intro op hop
      rcases List.mem_cons.mp hop with h1 | h1
      · rw [h1]; trivial
      · rw [List.mem_singleton.mp h1]
        exact Nat.one_ne_zero)

/-- The prefix path of the C10 witness scope: one placeholder. -/
def c10pfx : List Char := slashChar :: lbraceChar :: 'i' :: 'd' :: [rbraceChar]

/-- The operations of the C10 witness: a Prefix clone introducing a
placeholder, a route under it, and a route-level condition on that
placeholder. -/
def c10ops : List (Op String) :=
  [.prefixOp 0 c10pfx, .newRoute 1 [slashChar, 'x'],
    .routeWhereFunc 0 ['i', 'd'] (fun s => decide (s = "1"))]

/-- The state the C10 witness operations produce. -/
def c10fin : Sys String := (runOps sysInit c10ops).getD sysInit

/-- The single route the C10 witness operations create. -/
def c10rt : RouteObj := ⟨2, c10pfx ++ [slashChar, 'x']⟩

/-- Witness for C10 at a concrete builder run: the created route's
condition match is defined (no fault) on a one-value capture list. -/
theorem c10_condition_indices_safe_witness :
    (condMatch (getCondCell c10fin c10rt.condRef) ["v"]).isSome = true := by
  have hmem : c10rt ∈ c10fin.routes := by
    have hr : c10fin.routes = [c10rt] := rfl
    rw [hr]
    exact List.mem_singleton.mpr rfl
  have h := (c10_condition_indices_safe c10ops c10fin rfl c10rt hmem).2 ["v"] (by decide)
  exact Option.ne_none_iff_isSome.mp h
